import Mathlib

/-!
# Simple-HTTP-Server: a verification development for `src/index.js`

The server is a single Express handler.  This file embeds its pure parts
(path resolution, MIME classification, directory listing, file headers,
timestamp formatting, the error middleware) together with the Node and
ECMAScript library routines they call, and proves or refutes the properties
the specification states about them.

JavaScript strings are modelled as `List Char`.  Every string the server
handles is well formed (it comes from decoded UTF-8 or from an ASCII URL),
and all the characters the code inspects (`/`, `.`, `%`, `;`, letters) are
single UTF-16 code units, so positions in code units and positions in code
points select the same characters.
-/

namespace SimpleHttpServer

/-- String literals stand for their list of characters. -/
instance : Coe String (List Char) := ⟨String.toList⟩

/-! ## ECMAScript string helpers -/

/-- `String.prototype.slice(a, b)` for `0 ≤ a` and `0 ≤ b`. -/
def slice (s : List Char) (a b : Nat) : List Char := (s.take b).drop a

/-- `String.prototype.endsWith`. -/
def endsWith (s suffix : List Char) : Bool := suffix.isSuffixOf s

/-- `String.prototype.substring(n)`. -/
def substring (s : List Char) (n : Nat) : List Char := s.drop n

/-! ## `path.parse` (POSIX) -/

/-- The object `path.parse` returns. -/
structure ParsedPath where
  root : List Char
  dir : List Char
  base : List Char
  ext : List Char
  name : List Char
  deriving DecidableEq, Repr

/-- The local variables of the backwards scan in `path.parse`. -/
structure ParseScan where
  startDot : Int
  startPart : Nat
  end_ : Int
  matchedSlash : Bool
  preDotState : Int
  deriving DecidableEq, Repr

/-- The loop `for (; i >= start; --i)` of `path.parse`; the first numeric
argument is `i + 1`, so that `0` means the scan ran off the front. -/
def parseLoop (path : List Char) (start : Nat) : Nat → ParseScan → ParseScan
  | 0, st => st
  | i + 1, st =>
    if i < start then st
    else
      let code := path.getD i ' '
      if code = '/' then
        if !st.matchedSlash then { st with startPart := i + 1 }
        else parseLoop path start i st
      else
        let st1 : ParseScan :=
          if st.end_ = -1 then { st with matchedSlash := false, end_ := (i : Int) + 1 } else st
        let st2 : ParseScan :=
          if code = '.' then
            if st1.startDot = -1 then { st1 with startDot := (i : Int) }
            else if st1.preDotState ≠ 1 then { st1 with preDotState := 1 }
            else st1
          else if st1.startDot ≠ -1 then { st1 with preDotState := -1 }
          else st1
        parseLoop path start i st2

/-- `path.posix.parse(path)`. -/
def parse (path : List Char) : ParsedPath :=
  if path.length = 0 then { root := [], dir := [], base := [], ext := [], name := [] }
  else
    let isAbsolute := path.head? = some '/'
    let root : List Char := if isAbsolute then ['/'] else []
    let start : Nat := if isAbsolute then 1 else 0
    let st := parseLoop path start path.length
      { startDot := -1, startPart := 0, end_ := -1, matchedSlash := true, preDotState := 0 }
    let dir : List Char :=
      if st.startPart > 0 then slice path 0 (st.startPart - 1)
      else if isAbsolute then ['/'] else []
    if st.end_ ≠ -1 then
      let start2 : Nat := if st.startPart = 0 ∧ isAbsolute then 1 else st.startPart
      if st.startDot = -1 ∨ st.preDotState = 0 ∨
          (st.preDotState = 1 ∧ st.startDot = st.end_ - 1 ∧ st.startDot = (st.startPart : Int) + 1) then
        { root := root, dir := dir,
          base := slice path start2 st.end_.toNat, ext := [],
          name := slice path start2 st.end_.toNat }
      else
        { root := root, dir := dir,
          base := slice path start2 st.end_.toNat,
          ext := slice path st.startDot.toNat st.end_.toNat,
          name := slice path start2 st.startDot.toNat }
    else { root := root, dir := dir, base := [], ext := [], name := [] }

/-! ## The filesystem, as the handler sees it -/

/-- The fields of `fs.Stats` the server reads. -/
structure Stats where
  size : Nat
  isDirectory : Bool
  deriving DecidableEq, Repr

/-- A snapshot of the filesystem.  `statSync` and `readdirSync` throw in Node
when the call fails; here they return `none`. -/
structure FS where
  statSync : List Char → Option Stats
  readdirSync : List Char → Option (List (List Char))

/-- `fs.existsSync`: true exactly when the path can be stat-ed. -/
def FS.existsSync (fs : FS) (path : List Char) : Bool := (fs.statSync path).isSome

/-! ## The `mime` package (version 1, the one that has `lookup`) -/

/-- The data of a `Mime` object: the extension table and the default type. -/
structure Mime where
  types : List Char → Option (List Char)
  default_type : List Char

/-- Line terminators, which `.` in a regular expression does not match. -/
def isLineTerminator (c : Char) : Bool :=
  c = '\n' || c = '\r' || c.toNat = 0x2028 || c.toNat = 0x2029

/-- The index just after the last of `.`, `/`, `\` in a list, if there is one. -/
def afterLastSep : List Char → Option Nat
  | [] => none
  | c :: cs =>
    match afterLastSep cs with
    | some k => some (k + 1)
    | none => if c = '.' ∨ c = '/' ∨ c = '\\' then some 1 else none

/-- `path.replace(/^.*[\.\/\\]/, '')`: the greedy `.*` stays on the first
line, and the match ends at the last separator of that line. -/
def stripToExtension (path : List Char) : List Char :=
  match afterLastSep (path.takeWhile fun c => !isLineTerminator c) with
  | some k => path.drop k
  | none => path

/-- `String.prototype.toLowerCase`, on the ASCII letters. -/
def toLowerCase (s : List Char) : List Char := s.map Char.toLower

/-- The operator `a || b` on an optional string: `undefined` and `""` are falsy. -/
def orElse (a : Option (List Char)) (b : List Char) : List Char :=
  match a with
  | some (c :: cs) => c :: cs
  | _ => b

/-- `Mime.prototype.lookup(path, fallback)`:
`this.types[ext] || fallback || this.default_type`. -/
def Mime.lookup (m : Mime) (path : List Char) (fallback : Option (List Char)) : List Char :=
  let ext := toLowerCase (stripToExtension path)
  orElse (m.types ext) (orElse fallback m.default_type)

/-! ## `MimeType` -/

/-- `Canonicalize(ch)` of the regular expression engine under the flag `i`
without the flag `u`: `toUpperCase(ch)`, unless that is several code units or
maps a non-ASCII character into ASCII, in which case it is `ch` itself.  Two
characters match when their canonical forms agree; `upper` is the
`toUpperCase` mapping. -/
def canonicalize (upper : Char → List Char) (ch : Char) : Char :=
  match upper ch with
  | [cu] => if ch.toNat ≥ 128 ∧ cu.toNat < 128 then ch else cu
  | _ => ch

/-- `/^license$/i.test(name)`. -/
def isLicense (upper : Char → List Char) (name : List Char) : Bool :=
  name.map (canonicalize upper) = ("license" : List Char).map (canonicalize upper)

/-- `/^text\/[^; ]+$/.test(suggested)`. -/
def isBareText (suggested : List Char) : Bool :=
  ("text/" : List Char).isPrefixOf suggested &&
  decide (suggested.drop 5 ≠ []) &&
  (suggested.drop 5).all fun c => c ≠ ';' && c ≠ ' '

/-- `MimeType(path)` of `index.js`.  `lookup` is `mime.lookup`, `upper` the
`toUpperCase` mapping the regular expression engine uses, `fs` the
filesystem. -/
def MimeType (upper : Char → List Char) (lookup : List Char → Option (List Char) → List Char)
    (fs : FS) (path : List Char) : List Char :=
  let p := parse path
  let text : List Char := "text/plain; charset=utf-8"
  let stream : List Char := "application/octet-stream"
  let typescript : List Char := "application/typescript"
  if p.ext = [] then
    if isLicense upper p.name then text else stream
  else if p.name = (".editorconfig" : List Char) then text
  else if endsWith path ".ts" then
    if endsWith path ".d.ts" then typescript
    else if fs.existsSync path then
      match fs.statSync path with
      | some stats => if stats.size ≥ 2 ^ 20 then lookup path none else typescript
      | none => typescript
    else typescript
  else
    let suggested := lookup path (some stream)
    if endsWith path ".js" then suggested ++ "; charset=utf-8"
    else if isBareText suggested then suggested ++ "; charset=utf-8" else suggested

/-! ## `path.normalize` and `path.join` (POSIX) -/

/-- `String.prototype.lastIndexOf(ch)`, `-1` when the character is absent. -/
def lastIndexOf (s : List Char) (ch : Char) : Int :=
  match s with
  | [] => -1
  | c :: cs =>
    let r := lastIndexOf cs ch
    if r ≠ -1 then r + 1 else if c = ch then 0 else -1

/-- The local variables of `normalizeString`. -/
structure NormState where
  res : List Char
  lastSegmentLength : Int
  lastSlash : Int
  dots : Int
  deriving DecidableEq, Repr

/-- The tail of the `dots === 2` branch that is reached when nothing was
popped: with `allowAboveRoot` the segment `..` is kept. -/
def normKeepUp (allowAboveRoot : Bool) (i : Nat) (st : NormState) : NormState :=
  if allowAboveRoot then
    { res := st.res ++ (if st.res.length > 0 then ("/.." : List Char) else (".." : List Char)),
      lastSegmentLength := 2, lastSlash := i, dots := 0 }
  else { st with lastSlash := i, dots := 0 }

/-- The body of the loop of `normalizeString` when the code at index `i` is a
separator. -/
def normSeparator (path : List Char) (allowAboveRoot : Bool) (i : Nat) (st : NormState) :
    NormState :=
  if st.lastSlash = (i : Int) - 1 ∨ st.dots = 1 then
    { st with lastSlash := i, dots := 0 }
  else if st.dots = 2 then
    if st.res.length < 2 ∨ st.lastSegmentLength ≠ 2 ∨
        st.res.getD (st.res.length - 1) ' ' ≠ '.' ∨ st.res.getD (st.res.length - 2) ' ' ≠ '.' then
      if st.res.length > 2 then
        let lastSlashIndex := lastIndexOf st.res '/'
        if lastSlashIndex = -1 then
          { res := [], lastSegmentLength := 0, lastSlash := i, dots := 0 }
        else
          let res1 := slice st.res 0 lastSlashIndex.toNat
          { res := res1, lastSegmentLength := (res1.length : Int) - 1 - lastIndexOf res1 '/',
            lastSlash := i, dots := 0 }
      else if st.res.length ≠ 0 then
        { res := [], lastSegmentLength := 0, lastSlash := i, dots := 0 }
      else normKeepUp allowAboveRoot i st
    else normKeepUp allowAboveRoot i st
  else
    { res :=
        if st.res.length > 0 then
          st.res ++ ['/'] ++ slice path (st.lastSlash + 1).toNat i
        else slice path (st.lastSlash + 1).toNat i
      lastSegmentLength := (i : Int) - st.lastSlash - 1
      lastSlash := i
      dots := 0 }

/-- One turn of the loop of `normalizeString` on the code `code` at index `i`. -/
def normStep (path : List Char) (allowAboveRoot : Bool) (i : Nat) (code : Char)
    (st : NormState) : NormState :=
  if code = '/' then normSeparator path allowAboveRoot i st
  else if code = '.' ∧ st.dots ≠ -1 then { st with dots := st.dots + 1 }
  else { st with dots := -1 }

/-- The turns of the loop for the indices `i, i + 1, ...` that carry the codes
given in the list. -/
def normRun (path : List Char) (allowAboveRoot : Bool) :
    List Char → Nat → NormState → NormState
  | [], _, st => st
  | c :: cs, i, st => normRun path allowAboveRoot cs (i + 1) (normStep path allowAboveRoot i c st)

/-- `normalizeString(path, allowAboveRoot, '/', isPosixPathSeparator)`: the
loop runs over every index of the path, and at `i = path.length` it stops if
the last code was a separator and otherwise takes one more turn with `/`. -/
def normalizeString (path : List Char) (allowAboveRoot : Bool) : List Char :=
  let st := normRun path allowAboveRoot path 0
    { res := [], lastSegmentLength := 0, lastSlash := -1, dots := 0 }
  if path.getLast? = some '/' then st.res
  else (normStep path allowAboveRoot path.length '/' st).res

/-- `path.posix.normalize(path)`. -/
def normalize (path : List Char) : List Char :=
  if path.length = 0 then ['.']
  else
    let isAbsolute : Bool := path.head? = some '/'
    let trailingSeparator : Bool := path.getLast? = some '/'
    let p := normalizeString path (!isAbsolute)
    if p.length = 0 then
      if isAbsolute then ['/'] else if trailingSeparator then ("./" : List Char) else ['.']
    else
      let p1 := if trailingSeparator then p ++ ['/'] else p
      if isAbsolute then '/' :: p1 else p1

/-- `path.posix.join(...args)`. -/
def join (args : List (List Char)) : List Char :=
  let joined : Option (List Char) :=
    args.foldl (fun j arg =>
      if arg.length > 0 then
        match j with
        | none => some arg
        | some j1 => some (j1 ++ ['/'] ++ arg)
      else j) none
  match joined with
  | none => ['.']
  | some j => normalize j

/-- The local variables of the backwards scan in `path.basename`. -/
structure BaseScan where
  start : Nat
  end_ : Int
  matchedSlash : Bool
  deriving DecidableEq, Repr

/-- The loop `for (i = path.length - 1; i >= 0; --i)` of `path.basename`; the
numeric argument is `i + 1`. -/
def basenameLoop (path : List Char) : Nat → BaseScan → BaseScan
  | 0, st => st
  | i + 1, st =>
    if path.getD i ' ' = '/' then
      if !st.matchedSlash then { st with start := i + 1 }
      else basenameLoop path i st
    else if st.end_ = -1 then
      basenameLoop path i { st with matchedSlash := false, end_ := (i : Int) + 1 }
    else basenameLoop path i st

/-- `path.posix.basename(path)`. -/
def basename (path : List Char) : List Char :=
  let st := basenameLoop path path.length { start := 0, end_ := -1, matchedSlash := true }
  if st.end_ = -1 then [] else slice path st.start st.end_.toNat

/-! ## `encodeURIComponent` and `decodeURIComponent` -/

/-- The characters `encodeURIComponent` leaves alone: ASCII letters, digits
and the marks `- _ . ! ~ * ' ( )`. -/
def isUnescaped (c : Char) : Bool :=
  c.isAlphanum || c ∈ ("-_.!~*'()" : List Char)

/-- The hexadecimal digit of a value below 16, in upper case. -/
def hexDigit (n : Nat) : Char := ("0123456789ABCDEF" : List Char).getD n '0'

/-- The octets of the UTF-8 encoding of a character. -/
def utf8Encode (c : Char) : List Nat :=
  let v := c.toNat
  if v < 0x80 then [v]
  else if v < 0x800 then [0xC0 + v / 64, 0x80 + v % 64]
  else if v < 0x10000 then [0xE0 + v / 4096, 0x80 + v / 64 % 64, 0x80 + v % 64]
  else [0xF0 + v / 262144, 0x80 + v / 4096 % 64, 0x80 + v / 64 % 64, 0x80 + v % 64]

/-- One octet written as `%XX`. -/
def percentOctet (b : Nat) : List Char := ['%', hexDigit (b / 16), hexDigit (b % 16)]

/-- What `Encode` appends for one code point. -/
def encodeChar (c : Char) : List Char :=
  if isUnescaped c then [c] else (utf8Encode c).flatMap percentOctet

/-- `encodeURIComponent(s)` on a well-formed string (no lone surrogate, so no
`URIError`). -/
def encodeURIComponent (s : List Char) : List Char := s.flatMap encodeChar

/-- The value of one hexadecimal digit, either case. -/
def hexValue (c : Char) : Option Nat :=
  let n := c.toNat
  if 48 ≤ n ∧ n ≤ 57 then some (n - 48)
  else if 65 ≤ n ∧ n ≤ 70 then some (n - 55)
  else if 97 ≤ n ∧ n ≤ 102 then some (n - 87)
  else none

/-- `ParseHexOctet`: two hexadecimal digits to an octet. -/
def parseHexOctet (a b : Char) : Option Nat :=
  match hexValue a, hexValue b with
  | some x, some y => some (16 * x + y)
  | _, _ => none

/-- The number of leading one bits of an octet, as `Decode` needs it (every
value above 4 is rejected alike). -/
def leadingOnes (b : Nat) : Nat :=
  if b < 0x80 then 0 else if b < 0xC0 then 1 else if b < 0xE0 then 2
  else if b < 0xF0 then 3 else if b < 0xF8 then 4 else 5

/-- Reads `n` further escapes `%XX` and returns their octets and the rest. -/
def readContinuation : Nat → List Char → Option (List Nat × List Char)
  | 0, s => some ([], s)
  | n + 1, '%' :: a :: b :: rest =>
    match parseHexOctet a b with
    | some o =>
      match readContinuation n rest with
      | some (os, rest1) => some (o :: os, rest1)
      | none => none
    | none => none
  | _ + 1, _ => none

/-- The code point of a UTF-8 sequence of two to four octets, `none` when the
sequence is not valid UTF-8 (bad continuation octet, overlong form, surrogate,
or above `U+10FFFF`). -/
def utf8Decode (octets : List Nat) : Option Char :=
  let cont (o : Nat) : Bool := 0x80 ≤ o && o < 0xC0
  match octets with
  | [b0, b1] =>
    let v := (b0 - 0xC0) * 64 + (b1 - 0x80)
    if cont b1 ∧ 0x80 ≤ v then some (Char.ofNat v) else none
  | [b0, b1, b2] =>
    let v := ((b0 - 0xE0) * 64 + (b1 - 0x80)) * 64 + (b2 - 0x80)
    if cont b1 ∧ cont b2 ∧ 0x800 ≤ v ∧ ¬ (0xD800 ≤ v ∧ v ≤ 0xDFFF) then some (Char.ofNat v)
    else none
  | [b0, b1, b2, b3] =>
    let v := (((b0 - 0xF0) * 64 + (b1 - 0x80)) * 64 + (b2 - 0x80)) * 64 + (b3 - 0x80)
    if cont b1 ∧ cont b2 ∧ cont b3 ∧ 0x10000 ≤ v ∧ v ≤ 0x10FFFF then some (Char.ofNat v)
    else none
  | _ => none

/-- The loop of `Decode` with an empty preserved set.  Each turn produces one
character; the first argument bounds the number of turns. -/
def decodeLoop : Nat → List Char → Option (List Char)
  | _, [] => some []
  | 0, _ :: _ => none
  | fuel + 1, c :: cs =>
    if c ≠ '%' then (decodeLoop fuel cs).map (c :: ·)
    else
      match cs with
      | a :: b :: rest =>
        match parseHexOctet a b with
        | none => none
        | some o =>
          let n := leadingOnes o
          if n = 0 then (decodeLoop fuel rest).map (Char.ofNat o :: ·)
          else if n = 1 ∨ n > 4 then none
          else
            match readContinuation (n - 1) rest with
            | none => none
            | some (os, rest1) =>
              match utf8Decode (o :: os) with
              | none => none
              | some ch => (decodeLoop fuel rest1).map (ch :: ·)
      | _ => none

/-- `decodeURIComponent(s)`; `none` stands for the `URIError`.  A turn of the
loop consumes at least one character, so `s.length` turns always suffice. -/
def decodeURIComponent (s : List Char) : Option (List Char) := decodeLoop s.length s

/-! ## The request handler -/

/-- `s.replace(/\/+$/, "/")`: the trailing run of slashes becomes one slash. -/
def collapseTrailingSlashes (s : List Char) : List Char :=
  let kept := (s.reverse.dropWhile (· = '/')).reverse
  if kept.length < s.length then kept ++ ['/'] else s

/-- The first statements of the handler, from `url.pathname` to the pair
`(urlPath, path)`; `none` when `decodeURIComponent` throws. -/
def resolve (directory pathname : List Char) : Option (List Char × List Char) :=
  (decodeURIComponent pathname).map fun decoded =>
    let urlPath := collapseTrailingSlashes decoded
    (urlPath, join [directory, substring urlPath 1])

/-- The filesystem path the handler works on. -/
def resolvePath (directory pathname : List Char) : Option (List Char) :=
  (resolve directory pathname).map Prod.snd

/-- The `files` value of the directory branch:
`readdirSync(path).map(name => statSync(join(path, name)).isDirectory() ? name + "/" : name)`;
`none` when `readdirSync` or one of the `statSync` calls throws. -/
def listFiles (fs : FS) (path : List Char) : Option (List (List Char)) :=
  (fs.readdirSync path).bind fun names =>
    names.mapM fun name =>
      (fs.statSync (join [path, name])).map fun stat =>
        if stat.isDirectory then name ++ ['/'] else name

/-- The request, as far as the handler reads it: `pathname` is
`new URL(request.url, ...).pathname`, `range` and `userAgent` are the headers
that only the log line uses. -/
structure Request where
  pathname : List Char
  range : Option (List Char)
  userAgent : Option (List Char)

/-- The options object given to `response.sendFile`. -/
structure SendFileOptions where
  acceptRanges : Bool
  lastModified : Bool
  cacheControl : Bool
  dotfiles : List Char
  headers : List (List Char × List Char)
  deriving DecidableEq, Repr

/-- The value of the `Content-Disposition` header. -/
def contentDisposition (path : List Char) : List Char :=
  ("inline; filename=\"" : List Char) ++ encodeURIComponent (basename path) ++ ['"']

/-- The options of the file branch; `lastModified` is the string
`new Date(stats.mtime).toUTCString()`. -/
def sendFileOptions (path : List Char) (stats : Stats) (mimeType lastModified : List Char) :
    SendFileOptions :=
  let isStream : Bool := mimeType = ("application/octet-stream" : List Char)
  { acceptRanges := decide (stats.size > 3 * 2 ^ 20)
    lastModified := false
    cacheControl := false
    dotfiles := "allow"
    headers :=
      [("Access-Control-Allow-Methods", "GET"),
       ("Content-Type", mimeType),
       ("Content-Disposition", contentDisposition path),
       ("Cache-Control", if isStream then ("no-transform" : List Char) else ("public, max-age=3600" : List Char)),
       ("Last-Modified", lastModified)] }

/-- What the handler does with the response. -/
inductive Outcome where
  | notFound
  | render (directory : List Char) (files : List (List Char))
  | sendFile (path : List Char) (options : SendFileOptions)
  deriving DecidableEq, Repr

/-- The handler of `app.get("*")`, up to the log line; `none` when a call
throws.  `mtime` gives the formatted modification time of a path. -/
def handler (upper : Char → List Char) (lookup : List Char → Option (List Char) → List Char)
    (mtime : List Char → List Char) (fs : FS) (directory : List Char) (request : Request) :
    Option Outcome :=
  (resolve directory request.pathname).bind fun (urlPath, path) =>
    if !fs.existsSync path then some Outcome.notFound
    else
      (fs.statSync path).bind fun stats =>
        if stats.isDirectory then
          (listFiles fs path).map fun files => Outcome.render urlPath files
        else
          let mimeType := MimeType upper lookup fs path
          some (Outcome.sendFile path (sendFileOptions path stats mimeType (mtime path)))

/-! ## `GetFormattedDate` -/

/-- The decimal digits of a natural number, `Number.prototype.toString()`. -/
def numberToString (n : Nat) : List Char := (Nat.repr n).data

/-- `addZero(number)`. -/
def addZero (number : Nat) : List Char :=
  if number < 10 then '0' :: numberToString number else numberToString number

/-- The readings `GetFormattedDate` takes from a `Date`. -/
structure DateValue where
  getDate : Nat
  getMonth : Nat
  getFullYear : Nat
  getHours : Nat
  getMinutes : Nat
  getMilliseconds : Nat
  deriving DecidableEq, Repr

/-- `Array.prototype.join(sep)`. -/
def joinWith (sep : List Char) : List (List Char) → List Char
  | [] => []
  | [x] => x
  | x :: y :: rest => x ++ sep ++ joinWith sep (y :: rest)

/-- `GetFormattedDate(value)`.  `Math.round(ms / 10)` rounds halves up, which
on a whole number of milliseconds is `(ms + 5) / 10` rounded down. -/
def GetFormattedDate (date : DateValue) : List Char :=
  let day := date.getDate
  let month := date.getMonth + 1
  let year := date.getFullYear
  let hour := date.getHours
  let min := date.getMinutes
  let ms := (date.getMilliseconds + 5) / 10
  let dateString := joinWith ['/'] ([day, month, year].map addZero)
  let timeString := joinWith [':'] ([hour, min, ms].map addZero)
  dateString ++ [' '] ++ timeString

/-! ## The error middleware -/

/-- The JavaScript values that matter to the error middleware. -/
inductive JSValue where
  | number (n : Int)
  | undefined
  | string (s : List Char)
  deriving DecidableEq, Repr

/-- What reaches the error middleware: an `Error` object with its `status` and
`message` properties, or any other value. -/
inductive Thrown where
  | errorObject (status : JSValue) (message : List Char)
  | value (v : JSValue)
  deriving DecidableEq, Repr

/-- The response, as far as the middleware touches it. -/
structure Response where
  statusCode : JSValue
  headersSent : Bool
  ended : Bool
  deriving DecidableEq, Repr

/-- A call on the console. -/
inductive ConsoleCall where
  | log
  | error
  deriving DecidableEq, Repr

/-- The state after the middleware ran: the response, the value handed to
`next` if the middleware called it, the console calls, and whether the
middleware itself threw (Express then hands that new exception on). -/
structure HandlerResult where
  response : Response
  next : Option Thrown
  console : List ConsoleCall
  threw : Bool
  deriving DecidableEq, Repr

/-- `ToInt32` on an integral number: reduction modulo `2^32` into the signed
range. -/
def toInt32 (n : Int) : Int := (n + 2 ^ 31) % 2 ^ 32 - 2 ^ 31

/-- `statusCode | 0`, as `writeHead` computes it: `undefined` gives `0`, and
`ofString` stands for `ToInt32(ToNumber(s))` on a string. -/
def statusInt (ofString : List Char → Int) : JSValue → Int
  | JSValue.number n => toInt32 n
  | JSValue.undefined => 0
  | JSValue.string s => ofString s

/-- `response.end()`.  On a finished response it does nothing; when the
headers are out it only finishes; otherwise it first writes the head with
`response.statusCode`, and `writeHead` throws `ERR_HTTP_INVALID_STATUS_CODE`
(here `none`) unless `100 ≤ (statusCode | 0) ≤ 999`. -/
def endResponse (ofString : List Char → Int) (response : Response) : Option Response :=
  if response.ended then some response
  else if response.headersSent then some { response with ended := true }
  else if 100 ≤ statusInt ofString response.statusCode ∧
      statusInt ofString response.statusCode ≤ 999 then
    some { response with headersSent := true, ended := true }
  else none

/-- What `LogMessage` leaves behind: the response, the console calls, and
whether `response.end()` threw inside it. -/
structure LogResult where
  response : Response
  console : List ConsoleCall
  threw : Bool
  deriving DecidableEq, Repr

/-- `LogMessage(status, error)` of the middleware: with a truthy message it
sets `response.statusCode = status`, calls `response.end()` and then
`console.error`; else it calls `console.log`. -/
def LogMessage (ofString : List Char → Int) (response : Response) (status : JSValue)
    (error : List Char) : LogResult :=
  if error ≠ [] then
    match endResponse ofString { response with statusCode := status } with
    | some r => { response := r, console := [ConsoleCall.error], threw := false }
    | none => { response := { response with statusCode := status }, console := [], threw := true }
  else { response := response, console := [ConsoleCall.log], threw := false }

/-- The error middleware `app.use((error, request, response, next) => ...)`.
`response.status(x)` of Express 4 assigns `response.statusCode = x`. -/
def errorHandler (ofString : List Char → Int) (response : Response) (error : Thrown) :
    HandlerResult :=
  if response.headersSent then
    { response := { response with ended := true }, next := none, console := [ConsoleCall.log],
      threw := false }
  else
    match error with
    | Thrown.errorObject status message =>
      let logged := LogMessage ofString response status message
      if logged.threw then
        { response := logged.response, next := none, console := logged.console, threw := true }
      else
        match endResponse ofString { logged.response with statusCode := status } with
        | some r => { response := r, next := none, console := logged.console, threw := false }
        | none =>
          { response := { logged.response with statusCode := status }, next := none,
            console := logged.console, threw := true }
    | Thrown.value (JSValue.number n) =>
      match endResponse ofString { response with statusCode := JSValue.number n } with
      | some r => { response := r, next := none, console := [], threw := false }
      | none =>
        { response := { response with statusCode := JSValue.number n }, next := none,
          console := [], threw := true }
    | other => { response := response, next := some other, console := [], threw := false }

/-! ## Reference descriptions used in the statements -/

/-- How the handler shows one child: its name, with `/` added when the child
is a directory. -/
def displayName (fs : FS) (path name : List Char) : List Char :=
  if (fs.statSync (join [path, name])).map Stats.isDirectory = some true then name ++ ['/']
  else name

/-- A path without its final `/`, if it has one. -/
def stripTrailingSlash (p : List Char) : List Char :=
  if p.getLast? = some '/' then p.dropLast else p

/-- The normalized path `root` is a path-prefix of the normalized path `p`:
`p` starts with `root` (final `/` aside) and what follows is empty or begins a
new segment. -/
def isUnder (root p : List Char) : Bool :=
  (stripTrailingSlash root).isPrefixOf p &&
    ((p.drop (stripTrailingSlash root).length).isEmpty ||
      (p.drop (stripTrailingSlash root).length).head? = some '/')

/-- The segments of a path: the pieces between its slashes. -/
def splitSlash : List Char → List (List Char)
  | [] => [[]]
  | c :: cs =>
    if c = '/' then [] :: splitSlash cs
    else
      match splitSlash cs with
      | seg :: segs => (c :: seg) :: segs
      | [] => [[c]]

/-- What the counter `dots` of `normalizeString` holds after the characters
`seg` of a segment: their number when all are dots, `-1` if not. -/
def dotsOf (seg : List Char) : Int :=
  if seg.all (· = '.') then (seg.length : Int) else -1

/-- The result so far extends `base` at a segment boundary. -/
def ExtendsAt (base res : List Char) : Prop :=
  ∃ ext : List Char, res = base ++ ext ∧ (base = [] ∨ ext = [] ∨ ext.head? = some '/')

/-! ## Sample data for the concrete instances -/

/-- A sample `toUpperCase` mapping: exact on ASCII. -/
def asciiUpper (c : Char) : List Char := [c.toUpper]

/-- A small extension table in the style of the `mime` package. -/
def sampleTypes (ext : List Char) : Option (List Char) :=
  if ext = ("ts" : List Char) then some ("video/mp2t" : List Char)
  else if ext = ("js" : List Char) then some ("application/javascript" : List Char)
  else if ext = ("txt" : List Char) then some ("text/plain" : List Char)
  else if ext = ("html" : List Char) then some ("text/html" : List Char)
  else if ext = ("png" : List Char) then some ("image/png" : List Char)
  else none

/-- A `Mime` object holding the sample table. -/
def sampleMime : Mime := { types := sampleTypes, default_type := "application/octet-stream" }

/-- A filesystem: two TypeScript files under `/srv`, and a served directory
`/srv/www` with a text file, a subdirectory, a dotfile and a large file. -/
def sampleFS : FS :=
  { statSync := fun p =>
      if p = ("/srv/big.ts" : List Char) then some { size := 2 ^ 20, isDirectory := false }
      else if p = ("/srv/small.ts" : List Char) then some { size := 2 ^ 20 - 1, isDirectory := false }
      else if p = ("/srv/www" : List Char) then some { size := 4096, isDirectory := true }
      else if p = ("/srv/www/" : List Char) then some { size := 4096, isDirectory := true }
      else if p = ("/srv/www/a.txt" : List Char) then some { size := 10, isDirectory := false }
      else if p = ("/srv/www/sub" : List Char) then some { size := 4096, isDirectory := true }
      else if p = ("/srv/www/.hidden" : List Char) then some { size := 3, isDirectory := false }
      else if p = ("/srv/www/movie.mp4" : List Char) then
        some { size := 3 * 2 ^ 20 + 1, isDirectory := false }
      else none
    readdirSync := fun p =>
      if p = ("/srv/www" : List Char) ∨ p = ("/srv/www/" : List Char) then
        some [("a.txt" : List Char), ("sub" : List Char), (".hidden" : List Char),
          ("movie.mp4" : List Char)]
      else none }

/-- A filesystem whose served directory `/srv/www` holds a regular file and a
symbolic link to a missing target: `readdirSync` names the link, `statSync`
on it throws. -/
def danglingFS : FS :=
  { statSync := fun p =>
      if p = ("/srv/www" : List Char) then some { size := 4096, isDirectory := true }
      else if p = ("/srv/www/" : List Char) then some { size := 4096, isDirectory := true }
      else if p = ("/srv/www/a.txt" : List Char) then some { size := 10, isDirectory := false }
      else none
    readdirSync := fun p =>
      if p = ("/srv/www" : List Char) ∨ p = ("/srv/www/" : List Char) then
        some [("a.txt" : List Char), ("dangling" : List Char)]
      else none }

/-- A sample reading of `s | 0` on strings: every string gives `0`. -/
def sampleOfString (_ : List Char) : Int := 0

/-- A fixed `Last-Modified` string for the sample requests. -/
def sampleMtime (_ : List Char) : List Char := "Wed, 04 Nov 2026 21:48:00 GMT"

/-! ## Facts about the classifier -/

theorem canonicalize_ascii (upper : Char → List Char)
    (hup : ∀ c : Char, c.toNat < 128 → upper c = [c.toUpper]) (c : Char) (hc : c.toNat < 128) :
    canonicalize upper c = c.toUpper := by
  unfold canonicalize
  rw [hup c hc]
  simp only
  rw [if_neg]
  omega

theorem canonicalize_nonascii (upper : Char → List Char) (c : Char) (hc : 128 ≤ c.toNat) :
    128 ≤ (canonicalize upper c).toNat := by
  unfold canonicalize
  split
  · split
    · exact hc
    · omega
  · exact hc

theorem ascii_case_table : ∀ n : Fin 128, ∀ p ∈ ['l', 'i', 'c', 'e', 'n', 's'],
    ((Char.ofNat n.val).toUpper = p.toUpper ↔ (Char.ofNat n.val).toLower = p) := by
  decide

theorem char_ofNat_toNat (c : Char) : Char.ofNat c.toNat = c := by
  simp

theorem toLower_nonascii (c : Char) (hc : 128 ≤ c.toNat) : c.toLower = c := by
  unfold Char.toLower
  simp only
  rw [if_neg]
  omega

theorem canonicalize_letter (upper : Char → List Char)
    (hup : ∀ c : Char, c.toNat < 128 → upper c = [c.toUpper]) (c p : Char)
    (hp : p ∈ ['l', 'i', 'c', 'e', 'n', 's']) :
    canonicalize upper c = canonicalize upper p ↔ c.toLower = p := by
  have hp128 : p.toNat < 128 := by
    simp only [List.mem_cons, List.mem_singleton, List.not_mem_nil, or_false] at hp
    rcases hp with h | h | h | h | h | h <;> subst h <;> decide
  rw [canonicalize_ascii upper hup p hp128]
  by_cases hc : c.toNat < 128
  · rw [canonicalize_ascii upper hup c hc]
    have := ascii_case_table ⟨c.toNat, hc⟩ p hp
    simpa [char_ofNat_toNat] using this
  · have hc' : 128 ≤ c.toNat := by omega
    have h1 := canonicalize_nonascii upper c hc'
    rw [toLower_nonascii c hc']
    constructor
    · intro h
      exfalso
      rw [h] at h1
      simp only [List.mem_cons, List.mem_singleton, List.not_mem_nil, or_false] at hp
      rcases hp with h | h | h | h | h | h <;> subst h <;> revert h1 <;> decide
    · intro h
      exfalso
      rw [h] at hc'
      omega

theorem isLicense_iff (upper : Char → List Char)
    (hup : ∀ c : Char, c.toNat < 128 → upper c = [c.toUpper]) (name : List Char) :
    isLicense upper name = true ↔ name.map Char.toLower = ("license" : List Char) := by
  unfold isLicense
  have e : (("license" : String) : List Char) = ['l', 'i', 'c', 'e', 'n', 's', 'e'] := rfl
  rw [decide_eq_true_iff, e]
  have key : ∀ (ps : List Char), (∀ p ∈ ps, p ∈ ['l', 'i', 'c', 'e', 'n', 's']) →
      ∀ nm : List Char, (nm.map (canonicalize upper) = ps.map (canonicalize upper) ↔
        nm.map Char.toLower = ps) := by
    intro ps
    induction ps with
    | nil => intro _ nm; cases nm <;> simp
    | cons p ps ih =>
      intro hps nm
      cases nm with
      | nil => simp
      | cons c cs =>
        simp only [List.map_cons, List.cons.injEq]
        rw [canonicalize_letter upper hup c p (hps p (List.mem_cons_self _ _)),
          ih (fun q hq => hps q (List.mem_cons_of_mem _ hq)) cs]
  exact key _ (by decide) name

theorem isBareText_iff (t : List Char) :
    isBareText t = true ↔
      ∃ sub : List Char, sub ≠ [] ∧ t = ("text/" : List Char) ++ sub ∧
        ∀ c ∈ sub, c ≠ ';' ∧ c ≠ ' ' := by
  unfold isBareText
  simp only [Bool.and_eq_true, decide_eq_true_eq, List.all_eq_true, List.isPrefixOf_iff_prefix]
  constructor
  · rintro ⟨⟨⟨s, hs⟩, hne⟩, hall⟩
    have hs' : (("text/" : String) : List Char) ++ s = t := hs
    have hd : t.drop 5 = s := by rw [← hs']; rfl
    rw [hd] at hne hall
    exact ⟨s, hne, hs'.symm, fun c hc => by simpa using hall c hc⟩
  · rintro ⟨s, hne, ht, hall⟩
    have hd : t.drop 5 = s := by rw [ht]; rfl
    rw [hd]
    exact ⟨⟨⟨s, ht.symm⟩, hne⟩, fun c hc => by simpa using hall c hc⟩

/-- C2 (the code departs from the claim): for the file `/srv/.editorconfig`
`path.parse` yields the name `.editorconfig` and an empty `ext`, so `MimeType`
leaves through the no-extension branch and answers
`application/octet-stream`, whatever the MIME table and the filesystem hold. -/
theorem MimeType_editorconfig_octet_stream (upper : Char → List Char)
    (lookup : List Char → Option (List Char) → List Char) (fs : FS) :
    (parse "/srv/.editorconfig").name = (".editorconfig" : List Char) ∧
    (parse "/srv/.editorconfig").ext = [] ∧
    MimeType upper lookup fs "/srv/.editorconfig" = ("application/octet-stream" : List Char) := by
  have hp : parse "/srv/.editorconfig" =
      { root := "/", dir := "/srv", base := ".editorconfig", ext := [], name := ".editorconfig" } := by
    decide
  refine ⟨by rw [hp], by rw [hp], ?_⟩
  unfold MimeType
  simp only [hp, if_true]
  have hl : isLicense upper (".editorconfig" : List Char) = false := by
    unfold isLicense
    rw [decide_eq_false_iff_not]
    intro h
    have := congrArg List.length h
    simp at this
  rw [hl]
  rfl

/-- C5: a path whose parsed extension is empty is classified by its name
alone: `text/plain; charset=utf-8` when the name is `license` up to ASCII
case, `application/octet-stream` otherwise; the filesystem and the MIME table
play no part. -/
theorem MimeType_no_extension (upper : Char → List Char)
    (hup : ∀ c : Char, c.toNat < 128 → upper c = [c.toUpper])
    (lookup : List Char → Option (List Char) → List Char) (fs : FS) (path : List Char)
    (hext : (parse path).ext = []) :
    MimeType upper lookup fs path =
      if (parse path).name.map Char.toLower = ("license" : List Char)
      then ("text/plain; charset=utf-8" : List Char)
      else ("application/octet-stream" : List Char) := by
  unfold MimeType
  simp only [hext, if_true]
  by_cases h : (parse path).name.map Char.toLower = ("license" : List Char)
  · rw [if_pos h, if_pos ((isLicense_iff upper hup _).2 h)]
  · rw [if_neg h, if_neg (fun h2 => h ((isLicense_iff upper hup _).1 h2))]

theorem MimeType_no_extension_witness :
    (parse "/srv/License").ext = [] ∧
    MimeType asciiUpper sampleMime.lookup sampleFS "/srv/License" =
      if (parse "/srv/License").name.map Char.toLower = ("license" : List Char)
      then ("text/plain; charset=utf-8" : List Char)
      else ("application/octet-stream" : List Char) :=
  ⟨by decide, MimeType_no_extension asciiUpper (fun _ _ => rfl) sampleMime.lookup sampleFS
    "/srv/License" (by decide)⟩

/-- C3: on a path with a non-empty extension, a name other than
`.editorconfig`, and ending in `.ts`: a `.d.ts` path is
`application/typescript` whatever the filesystem holds; otherwise the answer
is `application/typescript` when the file is missing or smaller than `2^20`
bytes and the table lookup of the path when it exists with at least `2^20`
bytes; in particular at sizes `2^20 - 1` and `2^20`. -/
theorem MimeType_ts (upper : Char → List Char)
    (lookup : List Char → Option (List Char) → List Char) (fs : FS) (path : List Char)
    (hext : (parse path).ext ≠ []) (hname : (parse path).name ≠ (".editorconfig" : List Char))
    (hts : endsWith path ".ts" = true) :
    (endsWith path ".d.ts" = true →
      MimeType upper lookup fs path = ("application/typescript" : List Char)) ∧
    (endsWith path ".d.ts" = false → fs.existsSync path = false →
      MimeType upper lookup fs path = ("application/typescript" : List Char)) ∧
    (∀ stats : Stats, endsWith path ".d.ts" = false → fs.statSync path = some stats →
      stats.size < 2 ^ 20 →
      MimeType upper lookup fs path = ("application/typescript" : List Char)) ∧
    (∀ stats : Stats, endsWith path ".d.ts" = false → fs.statSync path = some stats →
      2 ^ 20 ≤ stats.size →
      MimeType upper lookup fs path = lookup path none) ∧
    (∀ stats : Stats, endsWith path ".d.ts" = false → fs.statSync path = some stats →
      stats.size = 2 ^ 20 - 1 →
      MimeType upper lookup fs path = ("application/typescript" : List Char)) ∧
    (∀ stats : Stats, endsWith path ".d.ts" = false → fs.statSync path = some stats →
      stats.size = 2 ^ 20 →
      MimeType upper lookup fs path = lookup path none) := by
  have hred : MimeType upper lookup fs path =
      if endsWith path ".d.ts" = true then ("application/typescript" : List Char)
      else if fs.existsSync path = true then
        match fs.statSync path with
        | some stats =>
          if stats.size ≥ 2 ^ 20 then lookup path none else ("application/typescript" : List Char)
        | none => ("application/typescript" : List Char)
      else ("application/typescript" : List Char) := by
    unfold MimeType
    simp only [hext, hname, hts, if_false, if_true]
  have hlt : ∀ stats : Stats, endsWith path ".d.ts" = false → fs.statSync path = some stats →
      stats.size < 2 ^ 20 →
      MimeType upper lookup fs path = ("application/typescript" : List Char) := by
    intro stats hd hs hsz
    rw [hred]
    simp only [hd, FS.existsSync, hs, Option.isSome_some, if_true, Bool.false_eq_true, if_false]
    exact if_neg (Nat.not_le.2 hsz)
  have hge : ∀ stats : Stats, endsWith path ".d.ts" = false → fs.statSync path = some stats →
      2 ^ 20 ≤ stats.size → MimeType upper lookup fs path = lookup path none := by
    intro stats hd hs hsz
    rw [hred]
    simp only [hd, FS.existsSync, hs, Option.isSome_some, if_true, Bool.false_eq_true, if_false]
    exact if_pos hsz
  refine ⟨?_, ?_, hlt, hge, ?_, ?_⟩
  · intro hd
    rw [hred, if_pos hd]
  · intro hd hex
    rw [hred]
    simp only [hd, hex, Bool.false_eq_true, if_false]
  · intro stats hd hs hsz
    exact hlt stats hd hs (by omega)
  · intro stats hd hs hsz
    exact hge stats hd hs (by omega)

theorem MimeType_ts_witness :
    (parse "/srv/big.ts").ext ≠ [] ∧
    (parse "/srv/big.ts").name ≠ (".editorconfig" : List Char) ∧
    endsWith "/srv/big.ts" ".ts" = true ∧
    MimeType asciiUpper sampleMime.lookup sampleFS "/srv/big.ts" = ("video/mp2t" : List Char) :=
  ⟨by decide, by decide, by decide,
    ((MimeType_ts asciiUpper sampleMime.lookup sampleFS "/srv/big.ts" (by decide) (by decide)
      (by decide)).2.2.2.2.2 { size := 2 ^ 20, isDirectory := false } (by decide) (by decide)
      rfl).trans (by decide)⟩

theorem endsWith_append (s t : List Char) : endsWith (s ++ t) t = true := by
  unfold endsWith
  rw [ List.isSuffixOf_iff_suffix]
  exact ⟨s, rfl⟩

/-- C4: on a path with a non-empty extension that is neither named
`.editorconfig` nor ends in `.ts`, with `T` the table lookup of the path
(default `application/octet-stream`): a path ending in `.js` gets `T` followed
by `; charset=utf-8`; otherwise `T` gets that charset exactly when it is
`text/` followed by a non-empty subtype free of `;` and of spaces, and is
returned unchanged if not.  Hence a `.js` path always has a type ending in
`; charset=utf-8`.  With the lookup of the `mime` package, `T` is
`application/octet-stream` when the table has no entry for the extension. -/
theorem MimeType_generic (upper : Char → List Char)
    (lookup : List Char → Option (List Char) → List Char) (fs : FS) (path : List Char)
    (hext : (parse path).ext ≠ []) (hname : (parse path).name ≠ (".editorconfig" : List Char))
    (hts : endsWith path ".ts" = false) :
    (endsWith path ".js" = true →
      MimeType upper lookup fs path =
        lookup path (some ("application/octet-stream" : List Char)) ++ ("; charset=utf-8" : List Char)) ∧
    (endsWith path ".js" = false →
      (∃ sub : List Char, sub ≠ [] ∧
        lookup path (some ("application/octet-stream" : List Char)) = ("text/" : List Char) ++ sub ∧
        ∀ c ∈ sub, c ≠ ';' ∧ c ≠ ' ') →
      MimeType upper lookup fs path =
        lookup path (some ("application/octet-stream" : List Char)) ++ ("; charset=utf-8" : List Char)) ∧
    (endsWith path ".js" = false →
      ¬ (∃ sub : List Char, sub ≠ [] ∧
        lookup path (some ("application/octet-stream" : List Char)) = ("text/" : List Char) ++ sub ∧
        ∀ c ∈ sub, c ≠ ';' ∧ c ≠ ' ') →
      MimeType upper lookup fs path =
        lookup path (some ("application/octet-stream" : List Char))) ∧
    (endsWith path ".js" = true →
      endsWith (MimeType upper lookup fs path) "; charset=utf-8" = true) ∧
    (∀ m : Mime, m.types (toLowerCase (stripToExtension path)) = none →
      m.lookup path (some ("application/octet-stream" : List Char)) =
        ("application/octet-stream" : List Char)) := by
  have hred : MimeType upper lookup fs path =
      if endsWith path ".js" = true then
        lookup path (some ("application/octet-stream" : List Char)) ++ ("; charset=utf-8" : List Char)
      else if isBareText (lookup path (some ("application/octet-stream" : List Char))) = true then
        lookup path (some ("application/octet-stream" : List Char)) ++ ("; charset=utf-8" : List Char)
      else lookup path (some ("application/octet-stream" : List Char)) := by
    unfold MimeType
    simp only [hext, hname, hts, if_false, Bool.false_eq_true]
  refine ⟨?_, ?_, ?_, ?_, ?_⟩
  rotate_right
  · intro m hm
    unfold Mime.lookup
    simp only [hm]
    rfl
  · intro hjs
    rw [hred, if_pos hjs]
  · intro hjs hsub
    rw [hred, if_neg (by rw [hjs]; exact Bool.false_ne_true), if_pos ((isBareText_iff _).2 hsub)]
  · intro hjs hsub
    rw [hred, if_neg (by rw [hjs]; exact Bool.false_ne_true),
      if_neg (fun h => hsub ((isBareText_iff _).1 h))]
  · intro hjs
    rw [hred, if_pos hjs]
    exact endsWith_append _ _

theorem MimeType_generic_witness :
    (parse "/srv/app.js").ext ≠ [] ∧
    (parse "/srv/app.js").name ≠ (".editorconfig" : List Char) ∧
    endsWith "/srv/app.js" ".ts" = false ∧
    MimeType asciiUpper sampleMime.lookup sampleFS "/srv/app.js" =
      ("application/javascript; charset=utf-8" : List Char) :=
  ⟨by decide, by decide, by decide,
    ((MimeType_generic asciiUpper sampleMime.lookup sampleFS "/srv/app.js" (by decide) (by decide)
      (by decide)).1 (by decide)).trans (by decide)⟩

/-! ## Range support, timestamps, the error middleware -/

theorem handler_serves_file (upper : Char → List Char)
    (lookup : List Char → Option (List Char) → List Char) (mtime : List Char → List Char)
    (fs : FS) (directory : List Char) (request : Request) (urlPath path : List Char)
    (stats : Stats) (hres : resolve directory request.pathname = some (urlPath, path))
    (hstat : fs.statSync path = some stats) (hfile : stats.isDirectory = false) :
    handler upper lookup mtime fs directory request =
      some (Outcome.sendFile path
        (sendFileOptions path stats (MimeType upper lookup fs path) (mtime path))) := by
  unfold handler
  rw [hres]
  simp [FS.existsSync, hstat, hfile]

theorem handler_sendFile_inv (upper : Char → List Char)
    (lookup : List Char → Option (List Char) → List Char) (mtime : List Char → List Char)
    (fs : FS) (directory : List Char) (request : Request) (path : List Char)
    (options : SendFileOptions)
    (hserved : handler upper lookup mtime fs directory request =
      some (Outcome.sendFile path options)) :
    ∃ stats : Stats, fs.statSync path = some stats ∧ stats.isDirectory = false ∧
      resolvePath directory request.pathname = some path ∧
      options = sendFileOptions path stats (MimeType upper lookup fs path) (mtime path) := by
  unfold handler at hserved
  cases hres : resolve directory request.pathname with
  | none => rw [hres] at hserved; exact absurd hserved (by simp)
  | some pr =>
    obtain ⟨urlPath, p⟩ := pr
    rw [hres] at hserved
    simp only [Option.some_bind, FS.existsSync] at hserved
    cases hstat : fs.statSync p with
    | none => rw [hstat] at hserved; simp at hserved
    | some stats =>
      rw [hstat] at hserved
      simp only [Option.isSome_some, Bool.not_true, Bool.false_eq_true, if_false,
        Option.some_bind] at hserved
      cases hdir : stats.isDirectory with
      | true =>
        rw [hdir] at hserved
        simp only [if_true] at hserved
        cases hl : listFiles fs p with
        | none => rw [hl] at hserved; simp at hserved
        | some files => rw [hl] at hserved; simp at hserved
      | false =>
        rw [hdir] at hserved
        simp only [Bool.false_eq_true, if_false, Option.some.injEq, Outcome.sendFile.injEq]
          at hserved
        obtain ⟨hp, ho⟩ := hserved
        subst hp
        refine ⟨stats, hstat, hdir, ?_, ho.symm⟩
        unfold resolvePath
        rw [hres]
        rfl

/-- C7: whenever the handler serves a file, the `acceptRanges` option it
hands to `sendFile` is true exactly when the size `statSync` reports for that
very file exceeds `3 * 2^20 = 3145728` bytes: false up to 3145728, true from
3145729 on; and the same request with any other `Range` and `User-Agent`
headers is served with the same options. -/
theorem acceptRanges_iff_size (upper : Char → List Char)
    (lookup : List Char → Option (List Char) → List Char) (mtime : List Char → List Char)
    (fs : FS) (directory : List Char) (request : Request) (path : List Char)
    (options : SendFileOptions)
    (hserved : handler upper lookup mtime fs directory request =
      some (Outcome.sendFile path options)) :
    ∃ stats : Stats, fs.statSync path = some stats ∧ stats.isDirectory = false ∧
      resolvePath directory request.pathname = some path ∧
      (options.acceptRanges = true ↔ 3 * 2 ^ 20 < stats.size) ∧
      (stats.size ≤ 3145728 → options.acceptRanges = false) ∧
      (3145729 ≤ stats.size → options.acceptRanges = true) ∧
      (∀ range agent : Option (List Char),
        handler upper lookup mtime fs directory
            { pathname := request.pathname, range := range, userAgent := agent } =
          some (Outcome.sendFile path options)) := by
  obtain ⟨stats, hstat, hdir, hpath, hopt⟩ :=
    handler_sendFile_inv upper lookup mtime fs directory request path options hserved
  have hacc : options.acceptRanges = decide (3 * 2 ^ 20 < stats.size) := by
    rw [hopt]
    rfl
  refine ⟨stats, hstat, hdir, hpath, ?_, ?_, ?_, ?_⟩
  · rw [hacc, decide_eq_true_iff]
  · intro hle
    rw [hacc, decide_eq_false_iff_not]
    omega
  · intro hge
    rw [hacc, decide_eq_true_iff]
    omega
  · intro range agent
    exact hserved

theorem acceptRanges_iff_size_witness :
    handler asciiUpper sampleMime.lookup sampleMtime sampleFS "/srv/www"
        { pathname := "/movie.mp4", range := some ("bytes=0-10" : List Char), userAgent := none } =
      some (Outcome.sendFile "/srv/www/movie.mp4"
        (sendFileOptions "/srv/www/movie.mp4" { size := 3145729, isDirectory := false }
          "application/octet-stream" (sampleMtime "/srv/www/movie.mp4"))) ∧
    ∃ stats : Stats, sampleFS.statSync "/srv/www/movie.mp4" = some stats ∧
      stats.isDirectory = false ∧
      resolvePath "/srv/www" "/movie.mp4" = some ("/srv/www/movie.mp4" : List Char) ∧
      ((sendFileOptions "/srv/www/movie.mp4" { size := 3145729, isDirectory := false }
          "application/octet-stream" (sampleMtime "/srv/www/movie.mp4")).acceptRanges = true ↔
        3 * 2 ^ 20 < stats.size) ∧
      (stats.size ≤ 3145728 →
        (sendFileOptions "/srv/www/movie.mp4" { size := 3145729, isDirectory := false }
          "application/octet-stream" (sampleMtime "/srv/www/movie.mp4")).acceptRanges = false) ∧
      (3145729 ≤ stats.size →
        (sendFileOptions "/srv/www/movie.mp4" { size := 3145729, isDirectory := false }
          "application/octet-stream" (sampleMtime "/srv/www/movie.mp4")).acceptRanges = true) ∧
      (∀ range agent : Option (List Char),
        handler asciiUpper sampleMime.lookup sampleMtime sampleFS "/srv/www"
            { pathname := "/movie.mp4", range := range, userAgent := agent } =
          some (Outcome.sendFile "/srv/www/movie.mp4"
            (sendFileOptions "/srv/www/movie.mp4" { size := 3145729, isDirectory := false }
              "application/octet-stream" (sampleMtime "/srv/www/movie.mp4")))) :=
  ⟨by decide,
    acceptRanges_iff_size asciiUpper sampleMime.lookup sampleMtime sampleFS "/srv/www"
      { pathname := "/movie.mp4", range := some ("bytes=0-10" : List Char), userAgent := none }
      "/srv/www/movie.mp4"
      (sendFileOptions "/srv/www/movie.mp4" { size := 3145729, isDirectory := false }
        "application/octet-stream" (sampleMtime "/srv/www/movie.mp4"))
      (by decide)⟩

/-- C9 (the code departs from the claim): at 995 milliseconds
`Math.round(995 / 10)` is 100, `addZero` leaves it alone, and the last field
of the timestamp has three digits. -/
theorem GetFormattedDate_ms_995 :
    GetFormattedDate
        { getDate := 4, getMonth := 10, getFullYear := 2026, getHours := 21, getMinutes := 48,
          getMilliseconds := 995 } =
      ("04/11/2026 21:48:100" : List Char) := by
  decide

/-- C10 (the code departs from the claim): for an `Error` object without a
numeric status and with headers unsent, the middleware does not call `next`
and does not leave the status alone: `LogMessage` assigns
`response.statusCode = undefined`, and `response.end()` then throws, so the
response is not ended and nothing is logged. -/
theorem errorHandler_statusless_error_throws (ofString : List Char → Int) :
    errorHandler ofString
        { statusCode := JSValue.number 200, headersSent := false, ended := false }
        (Thrown.errorObject JSValue.undefined "boom") =
      { response := { statusCode := JSValue.undefined, headersSent := false, ended := false },
        next := none, console := [], threw := true } := by
  simp [errorHandler, LogMessage, endResponse, statusInt]

/-- On an open response with unsent headers and a status between 100 and 999,
`response.end()` succeeds. -/
theorem endResponse_valid (ofString : List Char → Int) (response : Response)
    (hsent : response.headersSent = false) (hended : response.ended = false)
    (hvalid : 100 ≤ statusInt ofString response.statusCode ∧
      statusInt ofString response.statusCode ≤ 999) :
    endResponse ofString response = some { response with headersSent := true, ended := true } := by
  unfold endResponse
  rw [hended, hsent]
  simp only [Bool.false_eq_true, if_false]
  rw [if_pos hvalid]

/-- While headers are unsent and the response is open: an `Error` object
whose status the response accepts (between 100 and 999) and a bare number in
that range are answered by the middleware itself, with that status, the
response ended and `next` not called; a value that is neither an `Error`
object nor a number goes to `next` unchanged with the response untouched; and
an `Error` object is never handed to `next` by the middleware. -/
theorem errorHandler_dispatch (ofString : List Char → Int) (response : Response)
    (hsent : response.headersSent = false) (hended : response.ended = false) :
    (∀ (n : Int) (message : List Char), 100 ≤ n → n ≤ 999 →
      (errorHandler ofString response
          (Thrown.errorObject (JSValue.number n) message)).response.statusCode = JSValue.number n ∧
      (errorHandler ofString response
          (Thrown.errorObject (JSValue.number n) message)).response.ended = true ∧
      (errorHandler ofString response
          (Thrown.errorObject (JSValue.number n) message)).next = none ∧
      (errorHandler ofString response
          (Thrown.errorObject (JSValue.number n) message)).threw = false) ∧
    (∀ n : Int, 100 ≤ n → n ≤ 999 →
      (errorHandler ofString response (Thrown.value (JSValue.number n))).response.statusCode
          = JSValue.number n ∧
      (errorHandler ofString response (Thrown.value (JSValue.number n))).response.ended = true ∧
      (errorHandler ofString response (Thrown.value (JSValue.number n))).next = none ∧
      (errorHandler ofString response (Thrown.value (JSValue.number n))).threw = false) ∧
    (∀ (status : JSValue) (message : List Char),
      (errorHandler ofString response (Thrown.errorObject status message)).next = none) ∧
    (∀ error : Thrown,
      (∀ status message, error ≠ Thrown.errorObject status message) →
      (∀ n, error ≠ Thrown.value (JSValue.number n)) →
      (errorHandler ofString response error).next = some error ∧
      (errorHandler ofString response error).response = response ∧
      (errorHandler ofString response error).threw = false) := by
  have hint : ∀ n : Int, 100 ≤ n → n ≤ 999 →
      100 ≤ statusInt ofString (JSValue.number n) ∧ statusInt ofString (JSValue.number n) ≤ 999 := by
    intro n h1 h2
    have e : statusInt ofString (JSValue.number n) = n := by
      show toInt32 n = n
      unfold toInt32
      omega
    rw [e]
    exact ⟨h1, h2⟩
  obtain ⟨sc, hs, en⟩ := response
  simp only at hsent hended
  subst hsent hended
  refine ⟨?_, ?_, ?_, ?_⟩
  · intro n message h1 h2
    have hv := hint n h1 h2
    by_cases hm : message = []
    · simp [errorHandler, LogMessage, endResponse, hm, hv]
    · simp [errorHandler, LogMessage, endResponse, hm, hv]
  · intro n h1 h2
    have hv := hint n h1 h2
    simp [errorHandler, endResponse, hv]
  · intro status message
    unfold errorHandler
    simp only [Bool.false_eq_true, if_false]
    split_ifs
    · rfl
    · split <;> rfl
  · intro error h1 h2
    cases error with
    | errorObject status message => exact absurd rfl (h1 status message)
    | value v =>
      cases v with
      | number n => exact absurd rfl (h2 n)
      | undefined => exact ⟨rfl, rfl, rfl⟩
      | string s => exact ⟨rfl, rfl, rfl⟩

theorem errorHandler_dispatch_witness :
    (errorHandler sampleOfString
        { statusCode := JSValue.number 200, headersSent := false, ended := false }
        (Thrown.value (JSValue.string "boom"))).next =
      some (Thrown.value (JSValue.string "boom")) ∧
    (errorHandler sampleOfString
        { statusCode := JSValue.number 200, headersSent := false, ended := false }
        (Thrown.value (JSValue.string "boom"))).response =
      { statusCode := JSValue.number 200, headersSent := false, ended := false } ∧
    (errorHandler sampleOfString
        { statusCode := JSValue.number 200, headersSent := false, ended := false }
        (Thrown.value (JSValue.string "boom"))).threw = false :=
  (errorHandler_dispatch sampleOfString
    { statusCode := JSValue.number 200, headersSent := false, ended := false }
    rfl rfl).2.2.2 (Thrown.value (JSValue.string "boom"))
    (fun _ _ h => Thrown.noConfusion h)
    (fun _ h => by cases h)

/-! ## The directory listing -/

theorem mapM_stat_eq (fs : FS) (path : List Char) (names : List (List Char))
    (hstat : ∀ name ∈ names, (fs.statSync (join [path, name])).isSome = true) :
    names.mapM (fun name =>
        (fs.statSync (join [path, name])).map fun stat =>
          if stat.isDirectory then name ++ ['/'] else name) =
      some (names.map (displayName fs path)) := by
  induction names with
  | nil => rfl
  | cons name rest ih =>
    have h1 := hstat name (List.mem_cons_self _ _)
    have h2 := ih (fun n hn => hstat n (List.mem_cons_of_mem _ hn))
    rw [List.mapM_cons, h2]
    cases hs : fs.statSync (join [path, name]) with
    | none => rw [hs] at h1; exact absurd h1 (by decide)
    | some stat =>
      cases hd : stat.isDirectory <;> simp [displayName, hs, hd]

/-- C6 (the code departs from the claim): `/srv/www` exists, is a directory
and enumerates as `a.txt`, `dangling`, but `statSync` throws on the dangling
link, unguarded, so no list reaches the template and the handler throws. -/
theorem listing_fails_on_dangling_link :
    danglingFS.statSync "/srv/www" = some { size := 4096, isDirectory := true } ∧
    danglingFS.readdirSync "/srv/www" = some [("a.txt" : List Char), ("dangling" : List Char)] ∧
    listFiles danglingFS "/srv/www" = none ∧
    handler asciiUpper sampleMime.lookup sampleMtime danglingFS "/srv/www"
      { pathname := "/", range := none, userAgent := none } = none := by
  decide

/-- When the directory enumerates as `names` and `statSync` succeeds on every
child, the list handed to the template is `names` mapped through
`displayName`: same length, same order, the i-th entry being the i-th name,
with `/` added exactly for a directory; and the handler renders that list. -/
theorem listing_of_statable_children (fs : FS) (path : List Char) (names : List (List Char))
    (hdir : fs.readdirSync path = some names)
    (hstat : ∀ name ∈ names, (fs.statSync (join [path, name])).isSome = true) :
    listFiles fs path = some (names.map (displayName fs path)) ∧
    (names.map (displayName fs path)).length = names.length ∧
    (∀ (i : Nat) (h : i < names.length),
      (names.map (displayName fs path))[i]? = some (displayName fs path (names.get ⟨i, h⟩))) ∧
    (∀ (name : List Char) (stat : Stats), fs.statSync (join [path, name]) = some stat →
      displayName fs path name = if stat.isDirectory then name ++ ['/'] else name) ∧
    (∀ (upper : Char → List Char) (lookup : List Char → Option (List Char) → List Char)
      (mtime : List Char → List Char) (directory : List Char) (request : Request)
      (urlPath : List Char) (stats : Stats),
      resolve directory request.pathname = some (urlPath, path) →
      fs.statSync path = some stats → stats.isDirectory = true →
      handler upper lookup mtime fs directory request =
        some (Outcome.render urlPath (names.map (displayName fs path)))) := by
  have hl : listFiles fs path = some (names.map (displayName fs path)) := by
    unfold listFiles
    rw [hdir]
    exact mapM_stat_eq fs path names hstat
  refine ⟨hl, List.length_map _ _, ?_, ?_, ?_⟩
  · intro i h
    simp [List.getElem?_map, List.getElem?_eq_getElem h]
  · intro name stat hs
    unfold displayName
    rw [hs]
    cases hd : stat.isDirectory <;> simp [hd]
  · intro upper lookup mtime directory request urlPath stats hres hs hd
    unfold handler
    rw [hres]
    simp [FS.existsSync, hs, hd, hl]

theorem listing_of_statable_children_witness :
    sampleFS.readdirSync "/srv/www" =
      some [("a.txt" : List Char), ("sub" : List Char), (".hidden" : List Char),
        ("movie.mp4" : List Char)] ∧
    listFiles sampleFS "/srv/www" =
      some [("a.txt" : List Char), ("sub/" : List Char), (".hidden" : List Char),
        ("movie.mp4" : List Char)] :=
  ⟨by decide,
    (listing_of_statable_children sampleFS "/srv/www"
      [("a.txt" : List Char), ("sub" : List Char), (".hidden" : List Char),
        ("movie.mp4" : List Char)] (by decide) (by decide)).1.trans (by decide)⟩

/-! ## Percent-encoding round trip -/

theorem hexValue_hexDigit : ∀ n : Fin 16, hexValue (hexDigit n.val) = some n.val := by
  decide

theorem parseHexOctet_hexDigit (b : Nat) (hb : b < 256) :
    parseHexOctet (hexDigit (b / 16)) (hexDigit (b % 16)) = some b := by
  have h1 := hexValue_hexDigit ⟨b / 16, by omega⟩
  have h2 := hexValue_hexDigit ⟨b % 16, by omega⟩
  simp only at h1 h2
  unfold parseHexOctet
  rw [h1, h2]
  simp only [Option.some.injEq]
  omega

theorem readContinuation_percent (os : List Nat) (hos : ∀ o ∈ os, o < 256) (t : List Char) :
    readContinuation os.length (os.flatMap percentOctet ++ t) = some (os, t) := by
  induction os with
  | nil => rfl
  | cons o rest ih =>
    have ho := hos o (List.mem_cons_self _ _)
    have hr := ih (fun x hx => hos x (List.mem_cons_of_mem _ hx))
    have e : (o :: rest).flatMap percentOctet ++ t =
        '%' :: hexDigit (o / 16) :: hexDigit (o % 16) :: (rest.flatMap percentOctet ++ t) := by
      simp [List.flatMap_cons, percentOctet]
    rw [e, List.length_cons, readContinuation, parseHexOctet_hexDigit o ho]
    simp only
    rw [hr]

theorem char_toNat_valid (c : Char) :
    c.toNat < 0xD800 ∨ (0xDFFF < c.toNat ∧ c.toNat < 0x110000) := c.valid

theorem utf8Decode_utf8Encode (c : Char) (hc : 0x80 ≤ c.toNat) :
    utf8Decode (utf8Encode c) = some c := by
  have hv := char_toNat_valid c
  unfold utf8Encode
  simp only
  rw [if_neg (by omega)]
  by_cases h2 : c.toNat < 0x800
  · rw [if_pos h2]
    unfold utf8Decode
    simp only [Bool.and_eq_true, decide_eq_true_eq]
    have hval : (0xC0 + c.toNat / 64 - 0xC0) * 64 + (0x80 + c.toNat % 64 - 0x80) = c.toNat := by
      omega
    rw [hval, if_pos ⟨⟨by omega, by omega⟩, hc⟩, char_ofNat_toNat]
  · rw [if_neg h2]
    by_cases h3 : c.toNat < 0x10000
    · rw [if_pos h3]
      unfold utf8Decode
      simp only [Bool.and_eq_true, decide_eq_true_eq]
      have hval : ((0xE0 + c.toNat / 4096 - 0xE0) * 64 + (0x80 + c.toNat / 64 % 64 - 0x80)) * 64 +
          (0x80 + c.toNat % 64 - 0x80) = c.toNat := by omega
      rw [hval, if_pos ⟨⟨by omega, by omega⟩, ⟨by omega, by omega⟩, by omega, by omega⟩,
        char_ofNat_toNat]
    · rw [if_neg h3]
      unfold utf8Decode
      simp only [Bool.and_eq_true, decide_eq_true_eq]
      have hval : (((0xF0 + c.toNat / 262144 - 0xF0) * 64 + (0x80 + c.toNat / 4096 % 64 - 0x80)) * 64 +
          (0x80 + c.toNat / 64 % 64 - 0x80)) * 64 + (0x80 + c.toNat % 64 - 0x80) = c.toNat := by
        omega
      rw [hval, if_pos ⟨⟨by omega, by omega⟩, ⟨by omega, by omega⟩, ⟨by omega, by omega⟩,
        by omega, by omega⟩, char_ofNat_toNat]

theorem decodeLoop_escape (fuel : Nat) (a b : Char) (rest : List Char) (o : Nat)
    (h : parseHexOctet a b = some o) :
    decodeLoop (fuel + 1) ('%' :: a :: b :: rest) =
      if leadingOnes o = 0 then (decodeLoop fuel rest).map (Char.ofNat o :: ·)
      else if leadingOnes o = 1 ∨ leadingOnes o > 4 then none
      else
        match readContinuation (leadingOnes o - 1) rest with
        | none => none
        | some (os, rest1) =>
          match utf8Decode (o :: os) with
          | none => none
          | some ch => (decodeLoop fuel rest1).map (ch :: ·) := by
  rw [decodeLoop]
  simp only [ne_eq, not_true_eq_false, if_false, h]

theorem decodeLoop_octets (fuel : Nat) (c : Char) (o : Nat) (os : List Nat) (t : List Char)
    (ho : o < 256) (hos : ∀ x ∈ os, x < 256)
    (hlead : leadingOnes o = os.length + 1) (hlen : 1 ≤ os.length ∧ os.length ≤ 3)
    (hdec : utf8Decode (o :: os) = some c) :
    decodeLoop (fuel + 1) ((o :: os).flatMap percentOctet ++ t) =
      (decodeLoop fuel t).map (c :: ·) := by
  have e : (o :: os).flatMap percentOctet ++ t =
      '%' :: hexDigit (o / 16) :: hexDigit (o % 16) :: (os.flatMap percentOctet ++ t) := by
    simp [List.flatMap_cons, percentOctet]
  rw [e, decodeLoop_escape fuel _ _ _ o (parseHexOctet_hexDigit o ho), hlead]
  rw [if_neg (by omega), if_neg (by omega)]
  have hr : readContinuation (os.length + 1 - 1) (os.flatMap percentOctet ++ t) = some (os, t) := by
    rw [Nat.add_sub_cancel]
    exact readContinuation_percent os hos t
  rw [hr]
  simp only
  rw [hdec]

theorem isUnescaped_ne_percent (c : Char) (h : isUnescaped c = true) : c ≠ '%' := by
  intro hc
  rw [hc] at h
  exact absurd h (by decide)

theorem decodeLoop_encodeChar (fuel : Nat) (c : Char) (t : List Char) :
    decodeLoop (fuel + 1) (encodeChar c ++ t) = (decodeLoop fuel t).map (c :: ·) := by
  unfold encodeChar
  by_cases hu : isUnescaped c = true
  · rw [if_pos hu]
    show decodeLoop (fuel + 1) (c :: t) = _
    have hne := isUnescaped_ne_percent c hu
    conv_lhs => unfold decodeLoop
    simp only [ne_eq, hne, not_false_eq_true, if_true]
  · rw [if_neg hu]
    have hv := char_toNat_valid c
    by_cases h1 : c.toNat < 0x80
    · have he : utf8Encode c = [c.toNat] := by
        unfold utf8Encode
        simp only
        rw [if_pos h1]
      have e : [c.toNat].flatMap percentOctet ++ t =
          '%' :: hexDigit (c.toNat / 16) :: hexDigit (c.toNat % 16) :: t := by
        simp [percentOctet]
      rw [he, e, decodeLoop_escape fuel _ _ _ c.toNat (parseHexOctet_hexDigit _ (by omega))]
      have hl : leadingOnes c.toNat = 0 := by
        unfold leadingOnes
        rw [if_pos h1]
      rw [if_pos hl, char_ofNat_toNat]
    · have hdec := utf8Decode_utf8Encode c (by omega)
      by_cases h2 : c.toNat < 0x800
      · have he : utf8Encode c = [0xC0 + c.toNat / 64, 0x80 + c.toNat % 64] := by
          unfold utf8Encode
          simp only
          rw [if_neg h1, if_pos h2]
        rw [he] at hdec ⊢
        refine decodeLoop_octets fuel c _ _ t (by omega) ?_ ?_ (by simp) hdec
        · intro x hx
          simp only [List.mem_singleton] at hx
          omega
        · unfold leadingOnes
          rw [if_neg (by omega), if_neg (by omega), if_pos (by omega)]
          rfl
      · by_cases h3 : c.toNat < 0x10000
        · have he : utf8Encode c =
              [0xE0 + c.toNat / 4096, 0x80 + c.toNat / 64 % 64, 0x80 + c.toNat % 64] := by
            unfold utf8Encode
            simp only
            rw [if_neg h1, if_neg h2, if_pos h3]
          rw [he] at hdec ⊢
          refine decodeLoop_octets fuel c _ _ t (by omega) ?_ ?_ (by simp) hdec
          · intro x hx
            simp only [List.mem_cons, List.mem_singleton, List.not_mem_nil, or_false] at hx
            omega
          · unfold leadingOnes
            rw [if_neg (by omega), if_neg (by omega), if_neg (by omega), if_pos (by omega)]
            rfl
        · have he : utf8Encode c =
              [0xF0 + c.toNat / 262144, 0x80 + c.toNat / 4096 % 64, 0x80 + c.toNat / 64 % 64,
                0x80 + c.toNat % 64] := by
            unfold utf8Encode
            simp only
            rw [if_neg h1, if_neg h2, if_neg h3]
          rw [he] at hdec ⊢
          refine decodeLoop_octets fuel c _ _ t (by omega) ?_ ?_ (by simp) hdec
          · intro x hx
            simp only [List.mem_cons, List.mem_singleton, List.not_mem_nil, or_false] at hx
            omega
          · unfold leadingOnes
            rw [if_neg (by omega), if_neg (by omega), if_neg (by omega), if_neg (by omega),
              if_pos (by omega)]
            rfl

theorem decodeLoop_encode (s : List Char) :
    ∀ fuel : Nat, s.length ≤ fuel → decodeLoop fuel (encodeURIComponent s) = some s := by
  induction s with
  | nil =>
    intro fuel _
    cases fuel <;> rfl
  | cons c cs ih =>
    intro fuel hf
    cases fuel with
    | zero => simp at hf
    | succ f =>
      have e : encodeURIComponent (c :: cs) = encodeChar c ++ encodeURIComponent cs := by
        simp [encodeURIComponent, List.flatMap_cons]
      rw [e, decodeLoop_encodeChar, ih f (by simpa using hf)]
      rfl

theorem encodeChar_length (c : Char) : 1 ≤ (encodeChar c).length := by
  unfold encodeChar
  split
  · simp
  · unfold utf8Encode
    simp only
    split
    · simp [percentOctet]
    · split
      · simp [percentOctet]
      · split <;> simp [percentOctet]

theorem encodeURIComponent_length (s : List Char) : s.length ≤ (encodeURIComponent s).length := by
  induction s with
  | nil => simp [encodeURIComponent]
  | cons c cs ih =>
    have e : encodeURIComponent (c :: cs) = encodeChar c ++ encodeURIComponent cs := by
      simp [encodeURIComponent, List.flatMap_cons]
    rw [e, List.length_append, List.length_cons]
    have := encodeChar_length c
    omega

/-- C8: the `Content-Disposition` header given to `sendFile` is
`inline; filename="` followed by `encodeURIComponent` of the basename and a
closing quote, and `decodeURIComponent` maps the encoding of any string back
to that string, whatever characters it holds. -/
theorem contentDisposition_roundtrip :
    (∀ (path : List Char) (stats : Stats) (mimeType lastModified : List Char),
      ((("Content-Disposition" : String) : List Char),
        ("inline; filename=\"" : List Char) ++ encodeURIComponent (basename path) ++ ['"']) ∈
        (sendFileOptions path stats mimeType lastModified).headers) ∧
    (∀ b : List Char, decodeURIComponent (encodeURIComponent b) = some b) ∧
    (∀ path : List Char,
      decodeURIComponent (encodeURIComponent (basename path)) = some (basename path)) ∧
    encodeURIComponent (basename "/srv/www/a b\"%é€😀.txt") =
      ("a%20b%22%25%C3%A9%E2%82%AC%F0%9F%98%80.txt" : List Char) := by
  have h : ∀ b : List Char, decodeURIComponent (encodeURIComponent b) = some b := fun b =>
    decodeLoop_encode b _ (encodeURIComponent_length b)
  refine ⟨fun path stats mimeType lastModified => ?_, h, fun path => h _, by decide⟩
  simp [sendFileOptions, contentDisposition]

/-! ## The resolved path and the root directory -/

/-- C1, as first stated, fails: the pathname `/..%2F..%2Fetc` decodes to
`/../../etc`, and joined onto `/srv/www` it resolves to `/etc`, of which the
normalized root `/srv/www` is not a path-prefix. -/
theorem resolvePath_escapes_root :
    resolvePath "/srv/www" "/..%2F..%2Fetc" = some ("/etc" : List Char) ∧
    normalize "/srv/www" = ("/srv/www" : List Char) ∧
    normalize "/etc" = ("/etc" : List Char) ∧
    isUnder (normalize "/srv/www") (normalize "/etc") = false := by
  decide

theorem take_agree (p1 p2 : List Char) (n i : Nat) (h : p1.take n = p2.take n) (hi : i ≤ n) :
    p1.take i = p2.take i := by
  have e1 : p1.take i = (p1.take n).take i := by rw [List.take_take, Nat.min_eq_left hi]
  have e2 : p2.take i = (p2.take n).take i := by rw [List.take_take, Nat.min_eq_left hi]
  rw [e1, e2, h]

theorem normStep_congr (p1 p2 : List Char) (a : Bool) (i : Nat) (c : Char) (st : NormState)
    (h : p1.take i = p2.take i) : normStep p1 a i c st = normStep p2 a i c st := by
  simp only [normStep, normSeparator, slice, h]

theorem normRun_congr (p1 p2 : List Char) (a : Bool) (xs : List Char) :
    ∀ (i : Nat) (st : NormState), p1.take (i + xs.length) = p2.take (i + xs.length) →
      normRun p1 a xs i st = normRun p2 a xs i st := by
  induction xs with
  | nil => intro i st _; rfl
  | cons c cs ih =>
    intro i st h
    simp only [normRun]
    rw [normStep_congr p1 p2 a i c st (take_agree p1 p2 _ i h (by simp))]
    apply ih
    rw [List.length_cons] at h
    rw [show i + 1 + cs.length = i + (cs.length + 1) by omega]
    exact h

theorem normRun_append (p : List Char) (a : Bool) (xs ys : List Char) :
    ∀ (i : Nat) (st : NormState),
      normRun p a (xs ++ ys) i st = normRun p a ys (i + xs.length) (normRun p a xs i st) := by
  induction xs with
  | nil => intro i st; rfl
  | cons c cs ih =>
    intro i st
    show normRun p a (c :: (cs ++ ys)) i st = _
    simp only [normRun, List.length_cons]
    rw [ih, show i + 1 + cs.length = i + (cs.length + 1) by omega]

theorem normSeparator_lastSlash (p : List Char) (a : Bool) (i : Nat) (st : NormState) :
    (normSeparator p a i st).lastSlash = (i : Int) ∧ (normSeparator p a i st).dots = 0 := by
  unfold normSeparator normKeepUp
  dsimp only
  split_ifs <;> exact ⟨rfl, rfl⟩

theorem splitSlash_ne_nil (l : List Char) : splitSlash l ≠ [] := by
  cases l with
  | nil => simp [splitSlash]
  | cons c cs =>
    unfold splitSlash
    split_ifs
    · simp
    · split <;> simp

theorem splitSlash_segment (seg xs : List Char) (hseg : '/' ∉ seg) :
    splitSlash (seg ++ '/' :: xs) = seg :: splitSlash xs := by
  induction seg with
  | nil => simp [splitSlash]
  | cons c cs ih =>
    have hc : c ≠ '/' := fun h => hseg (by simp [h])
    have hcs : '/' ∉ cs := fun h => hseg (List.mem_cons_of_mem _ h)
    show splitSlash (c :: (cs ++ '/' :: xs)) = _
    rw [splitSlash, if_neg hc, ih hcs]

theorem splitSlash_append_slash (l : List Char) :
    splitSlash (l ++ ['/']) = splitSlash l ++ [[]] := by
  induction l with
  | nil => simp [splitSlash]
  | cons c cs ih =>
    show splitSlash (c :: (cs ++ ['/'])) = _
    by_cases hc : c = '/'
    · rw [splitSlash, if_pos hc, ih, splitSlash, if_pos hc]
      rfl
    · rw [splitSlash, if_neg hc, ih]
      conv_rhs => rw [splitSlash, if_neg hc]
      cases h : splitSlash cs with
      | nil => exact absurd h (splitSlash_ne_nil cs)
      | cons seg segs => rfl

theorem dotsOf_two (seg : List Char) (h : dotsOf seg = 2) : seg = ['.', '.'] := by
  unfold dotsOf at h
  split_ifs at h with hall
  · have hlen : seg.length = 2 := by exact_mod_cast h
    match seg, hlen, hall with
    | [a, b], _, hall =>
      simp only [List.all_cons, List.all_nil, Bool.and_true, Bool.and_eq_true,
        decide_eq_true_eq] at hall
      rw [hall.1, hall.2]

theorem normStep_plain (p : List Char) (a : Bool) (i : Nat) (c : Char) (st : NormState)
    (seg : List Char) (hc : c ≠ '/') (hd : st.dots = dotsOf seg) :
    (normStep p a i c st).dots = dotsOf (seg ++ [c]) ∧ (normStep p a i c st).res = st.res := by
  unfold normStep
  rw [if_neg hc]
  have hlen : (0 : Int) ≤ (seg.length : Int) := Int.natCast_nonneg _
  by_cases hdot : c = '.'
  · by_cases hall : seg.all (· = '.') = true
    · have hd' : st.dots = (seg.length : Int) := by rw [hd, dotsOf, if_pos hall]
      rw [if_pos ⟨hdot, by omega⟩]
      refine ⟨?_, rfl⟩
      have : (seg ++ [c]).all (· = '.') = true := by simp [List.all_append, hall, hdot]
      rw [dotsOf, if_pos this, List.length_append, List.length_singleton]
      show st.dots + 1 = _
      rw [hd']
      push_cast
      rfl
    · have hd' : st.dots = -1 := by rw [hd, dotsOf, if_neg hall]
      rw [if_neg (fun h => h.2 hd')]
      refine ⟨?_, rfl⟩
      have : ¬ (seg ++ [c]).all (· = '.') = true := by
        simp only [List.all_append, Bool.and_eq_true, not_and]
        intro h
        exact absurd h hall
      rw [dotsOf, if_neg this]
  · rw [if_neg (fun h => hdot h.1)]
    refine ⟨?_, rfl⟩
    have : ¬ (seg ++ [c]).all (· = '.') = true := by
      simp [List.all_append, hdot]
    rw [dotsOf, if_neg this]

theorem normSeparator_extends (p : List Char) (i : Nat) (st : NormState) (base : List Char)
    (hinv : ExtendsAt base st.res) (hd : st.dots ≠ 2) :
    ExtendsAt base (normSeparator p false i st).res := by
  unfold normSeparator
  by_cases h1 : st.lastSlash = (i : Int) - 1 ∨ st.dots = 1
  · rw [if_pos h1]
    exact hinv
  · rw [if_neg h1, if_neg hd]
    obtain ⟨ext, hres, hcase⟩ := hinv
    dsimp only
    by_cases hlen : st.res.length > 0
    · rw [if_pos hlen]
      refine ⟨ext ++ ['/'] ++ slice p (st.lastSlash + 1).toNat i, ?_, ?_⟩
      · rw [hres]
        simp [List.append_assoc]
      · rcases hcase with hb | he | hh
        · exact Or.inl hb
        · right; right
          rw [he]
          rfl
        · right; right
          cases ext with
          | nil => simp at hh
          | cons e es => simpa using hh
    · rw [if_neg hlen]
      have hnil : st.res = [] := by
        cases hr : st.res with
        | nil => rfl
        | cons x xs => rw [hr] at hlen; simp at hlen
      rw [hnil] at hres
      have hb : base = [] := (List.append_eq_nil.1 hres.symm).1
      exact ⟨slice p (st.lastSlash + 1).toNat i, by rw [hb]; rfl, Or.inl hb⟩

theorem normRun_extends (p base : List Char) (xs : List Char) :
    ∀ (i : Nat) (st : NormState) (seg : List Char),
      ExtendsAt base st.res → st.dots = dotsOf seg → '/' ∉ seg →
      ['.', '.'] ∉ splitSlash (seg ++ xs) →
      ExtendsAt base (normRun p false xs i st).res := by
  induction xs with
  | nil => intro i st seg hinv _ _ _; exact hinv
  | cons c cs ih =>
    intro i st seg hinv hd hseg hno
    simp only [normRun]
    by_cases hc : c = '/'
    · subst hc
      rw [splitSlash_segment seg cs hseg] at hno
      have hne : seg ≠ ['.', '.'] := fun h => hno (by rw [h]; exact List.mem_cons_self _ _)
      have hno' : ['.', '.'] ∉ splitSlash cs := fun h => hno (List.mem_cons_of_mem _ h)
      have hd2 : st.dots ≠ 2 := fun h => hne (dotsOf_two seg (by rw [← hd]; exact h))
      have hstep : normStep p false i '/' st = normSeparator p false i st := by
        unfold normStep
        rw [if_pos rfl]
      rw [hstep]
      refine ih (i + 1) _ [] (normSeparator_extends p i st base hinv hd2) ?_ (by simp) ?_
      · rw [(normSeparator_lastSlash p false i st).2]
        rfl
      · simpa using hno'
    · obtain ⟨hdots, hres⟩ := normStep_plain p false i c st seg hc hd
      refine ih (i + 1) _ (seg ++ [c]) (by rw [hres]; exact hinv) hdots ?_ ?_
      · intro h
        rcases List.mem_append.1 h with h | h
        · exact hseg h
        · exact hc (List.mem_singleton.1 h).symm
      · rw [List.append_assoc]
        exact hno

theorem isUnder_of_extends (R p x : List Char) (hp : p = stripTrailingSlash R ++ x)
    (hx : x = [] ∨ x.head? = some '/') : isUnder R p = true := by
  unfold isUnder
  rw [hp]
  simp only [Bool.and_eq_true, Bool.or_eq_true, List.isPrefixOf_iff_prefix, List.drop_left,
    List.isEmpty_iff, decide_eq_true_eq]
  exact ⟨⟨x, rfl⟩, hx⟩

theorem isUnder_append (R y : List Char) (hy : y = [] ∨ y.head? = some '/') :
    isUnder R (R ++ y) = true := by
  by_cases hl : R.getLast? = some '/'
  · obtain ⟨r, hr⟩ := List.getLast?_eq_some_iff.1 hl
    have hs : stripTrailingSlash R = r := by
      unfold stripTrailingSlash
      rw [if_pos hl, hr, List.dropLast_concat]
    refine isUnder_of_extends R _ ('/' :: y) ?_ (Or.inr rfl)
    rw [hs, hr]
    simp
  · refine isUnder_of_extends R _ y ?_ hy
    unfold stripTrailingSlash
    rw [if_neg hl]

theorem normalize_absolute (path : List Char) (habs : path.head? = some '/') :
    normalize path =
      if (normalizeString path false).length = 0 then ['/']
      else '/' :: (normalizeString path false ++
        (if path.getLast? = some '/' then ['/'] else [])) := by
  have hne : path.length ≠ 0 := by
    cases path with
    | nil => simp at habs
    | cons c cs => simp
  unfold normalize
  rw [if_neg hne]
  simp only [habs, decide_True, Bool.not_true, if_true]
  split_ifs <;> simp_all

theorem normStep_slash (p : List Char) (a : Bool) (i : Nat) (st : NormState) :
    normStep p a i '/' st = normSeparator p a i st := by
  unfold normStep
  rw [if_pos rfl]

theorem normRun_lastSlash (p : List Char) (a : Bool) (r : List Char) (i : Nat) (st : NormState) :
    (normRun p a (r ++ ['/']) i st).lastSlash = ((i + r.length : Nat) : Int) := by
  rw [normRun_append]
  simp only [normRun]
  rw [normStep_slash, (normSeparator_lastSlash _ _ _ _).1]

theorem normRun_root (root rest : List Char) :
    (normRun (root ++ '/' :: rest) false (root ++ ['/']) 0
        { res := [], lastSegmentLength := 0, lastSlash := -1, dots := 0 }).res =
      normalizeString root false ∧
    (normRun (root ++ '/' :: rest) false (root ++ ['/']) 0
        { res := [], lastSegmentLength := 0, lastSlash := -1, dots := 0 }).dots = 0 := by
  have htake : (root ++ '/' :: rest).take root.length = root.take root.length := by
    rw [List.take_left, List.take_length]
  have hA : normRun (root ++ '/' :: rest) false root 0
        { res := [], lastSegmentLength := 0, lastSlash := -1, dots := 0 } =
      normRun root false root 0
        { res := [], lastSegmentLength := 0, lastSlash := -1, dots := 0 } :=
    normRun_congr _ _ false root 0 _ (by rw [Nat.zero_add]; exact htake)
  rw [normRun_append, hA, Nat.zero_add]
  simp only [normRun]
  rw [normStep_congr (root ++ '/' :: rest) root false root.length '/' _ htake]
  have hstep : ∀ st : NormState,
      normStep root false root.length '/' st = normSeparator root false root.length st := by
    intro st
    unfold normStep
    rw [if_pos rfl]
  refine ⟨?_, by rw [hstep]; exact (normSeparator_lastSlash _ _ _ _).2⟩
  unfold normalizeString
  dsimp only
  by_cases hl : root.getLast? = some '/'
  · rw [if_pos hl]
    obtain ⟨r, hr⟩ := List.getLast?_eq_some_iff.1 hl
    have hls : (normRun root false root 0
        { res := [], lastSegmentLength := 0, lastSlash := -1, dots := 0 }).lastSlash =
        (root.length : Int) - 1 := by
      have h := normRun_lastSlash root false r 0
        { res := [], lastSegmentLength := 0, lastSlash := -1, dots := 0 }
      rw [← hr] at h
      rw [h, hr]
      simp
    rw [hstep]
    unfold normSeparator
    rw [if_pos (Or.inl hls)]
  · rw [if_neg hl]

theorem normalizeString_eq_run (p : List Char) (a : Bool) :
    normalizeString p a =
      (normRun p a (if p.getLast? = some '/' then p else p ++ ['/']) 0
        { res := [], lastSegmentLength := 0, lastSlash := -1, dots := 0 }).res := by
  unfold normalizeString
  dsimp only
  by_cases hl : p.getLast? = some '/'
  · rw [if_pos hl, if_pos hl]
  · rw [if_neg hl, if_neg hl, normRun_append, Nat.zero_add]
    rfl

theorem getLast?_joined (root rest : List Char) (hrest : rest ≠ []) :
    (root ++ '/' :: rest).getLast? = rest.getLast? := by
  cases rest with
  | nil => exact absurd rfl hrest
  | cons c cs =>
    rw [show root ++ '/' :: c :: cs = (root ++ ['/']) ++ (c :: cs) by simp]
    rw [List.getLast?_append_of_ne_nil _ (List.cons_ne_nil c cs)]

theorem normalizeString_joined_extends (root rest : List Char) (hrest : rest ≠ [])
    (hno : ['.', '.'] ∉ splitSlash rest) :
    ExtendsAt (normalizeString root false) (normalizeString (root ++ '/' :: rest) false) := by
  rw [normalizeString_eq_run (root ++ '/' :: rest) false, getLast?_joined root rest hrest]
  have hlist : (if rest.getLast? = some '/' then root ++ '/' :: rest
        else (root ++ '/' :: rest) ++ ['/']) =
      (root ++ ['/']) ++ (if rest.getLast? = some '/' then rest else rest ++ ['/']) := by
    split_ifs <;> simp
  have hno' : ['.', '.'] ∉
      splitSlash ([] ++ (if rest.getLast? = some '/' then rest else rest ++ ['/'])) := by
    rw [List.nil_append]
    split_ifs
    · exact hno
    · rw [splitSlash_append_slash]
      intro h
      rcases List.mem_append.1 h with h | h
      · exact hno h
      · simp at h
  obtain ⟨hres, hdots⟩ := normRun_root root rest
  rw [hlist, normRun_append]
  refine normRun_extends _ _ _ _ _ [] ⟨[], ?_, Or.inr (Or.inl rfl)⟩ ?_ (by simp) hno'
  · rw [hres, List.append_nil]
  · rw [hdots]
    rfl

theorem join_under_root (root rest : List Char) (habs : root.head? = some '/')
    (hno : ['.', '.'] ∉ splitSlash rest) :
    isUnder (normalize root) (join [root, rest]) = true := by
  have hroot : root.length > 0 := by
    cases root with
    | nil => simp at habs
    | cons c cs => simp
  by_cases hrest : rest = []
  · have hj : join [root, rest] = normalize root := by
      subst hrest
      simp [join, hroot]
    rw [hj]
    simpa using isUnder_append (normalize root) [] (Or.inl rfl)
  · have hrl : rest.length > 0 := List.length_pos.2 hrest
    have hj : join [root, rest] = normalize (root ++ '/' :: rest) := by
      simp [join, hroot, hrl]
    have habs' : (root ++ '/' :: rest).head? = some '/' := by
      cases root with
      | nil => simp at habs
      | cons c cs => simpa using habs
    rw [hj, normalize_absolute root habs, normalize_absolute _ habs']
    obtain ⟨ext, hext, hcase⟩ := normalizeString_joined_extends root rest hrest hno
    by_cases hR0 : normalizeString root false = []
    · rw [hR0]
      simp only [List.length_nil, if_true]
      have hstrip : stripTrailingSlash ['/'] = [] := by decide
      refine isUnder_of_extends _ _ _ (by rw [hstrip, List.nil_append]) (Or.inr ?_)
      by_cases hN0 : (normalizeString (root ++ '/' :: rest) false).length = 0
      · rw [if_pos hN0]
        rfl
      · rw [if_neg hN0]
        rfl
    · have hN : normalizeString (root ++ '/' :: rest) false ≠ [] := by
        rw [hext]
        intro h
        exact hR0 (List.append_eq_nil.1 h).1
      rw [if_neg (fun h => hR0 (List.length_eq_zero.1 h)),
        if_neg (fun h => hN (List.length_eq_zero.1 h)), hext]
      have hx : ∀ tr : List Char, (tr = [] ∨ tr = ['/']) →
          (ext ++ tr = [] ∨ (ext ++ tr).head? = some '/') := by
        intro tr htr
        rcases hcase with hb | he | hh
        · exact absurd hb hR0
        · rw [he]
          rcases htr with h | h <;> rw [h]
          · exact Or.inl rfl
          · exact Or.inr rfl
        · right
          cases ext with
          | nil => simp at hh
          | cons e es => simpa using hh
      have htr : (if (root ++ '/' :: rest).getLast? = some '/' then ['/'] else []) = [] ∨
          (if (root ++ '/' :: rest).getLast? = some '/' then ['/'] else []) = ['/'] := by
        split_ifs
        · exact Or.inr rfl
        · exact Or.inl rfl
      by_cases hl : root.getLast? = some '/'
      · rw [if_pos hl]
        refine isUnder_of_extends _ _ _ ?_ (hx _ htr)
        have hs : stripTrailingSlash ('/' :: (normalizeString root false ++ ['/'])) =
            '/' :: normalizeString root false := by
          unfold stripTrailingSlash
          rw [show '/' :: (normalizeString root false ++ ['/']) =
            ('/' :: normalizeString root false) ++ ['/'] by simp]
          rw [if_pos (List.getLast?_concat _), List.dropLast_concat]
        rw [hs]
        simp [List.append_assoc]
      · rw [if_neg hl, List.append_nil]
        have := isUnder_append ('/' :: normalizeString root false) _ (hx _ htr)
        simpa [List.append_assoc] using this

/-- C1, amended: for an absolute root directory and a pathname whose decoded
form, after the trailing slashes are collapsed and the leading character is
dropped, has no `..` segment, the handler resolves to a path of which the
normalized root is a path-prefix. -/
theorem resolvePath_under_root (root pathname decoded : List Char)
    (habs : root.head? = some '/')
    (hdec : decodeURIComponent pathname = some decoded)
    (hno : ['.', '.'] ∉ splitSlash (substring (collapseTrailingSlashes decoded) 1)) :
    resolvePath root pathname =
      some (join [root, substring (collapseTrailingSlashes decoded) 1]) ∧
    isUnder (normalize root) (join [root, substring (collapseTrailingSlashes decoded) 1]) = true := by
  refine ⟨?_, join_under_root root _ habs hno⟩
  unfold resolvePath resolve
  rw [hdec]
  rfl

theorem resolvePath_under_root_witness :
    (("/srv/www" : String) : List Char).head? = some '/' ∧
    decodeURIComponent "/a/./b%20c//" = some ("/a/./b c//" : List Char) ∧
    resolvePath "/srv/www" "/a/./b%20c//" = some ("/srv/www/a/b c/" : List Char) ∧
    isUnder (normalize "/srv/www") ("/srv/www/a/b c/" : List Char) = true :=
  have h := resolvePath_under_root "/srv/www" "/a/./b%20c//" "/a/./b c//" (by decide) (by decide)
    (by decide)
  ⟨by decide, by decide, h.1.trans (by decide),
    (congrArg (isUnder (normalize "/srv/www")) (by decide)).symm.trans h.2⟩

/-! ## The parsed extension of a file path is a suffix of the path -/

theorem parseLoop_end (path : List Char) (start : Nat) :
    ∀ (n : Nat) (st : ParseScan), st.end_ ≠ -1 → (parseLoop path start n st).end_ = st.end_ := by
  intro n
  induction n with
  | zero => intro st _; rfl
  | succ i ih =>
    intro st hst
    unfold parseLoop
    by_cases h1 : i < start
    · rw [if_pos h1]
    · rw [if_neg h1]
      dsimp only
      by_cases h2 : path.getD i ' ' = '/'
      · rw [if_pos h2]
        by_cases h3 : (!st.matchedSlash) = true
        · rw [if_pos h3]
        · rw [if_neg h3]
          exact ih st hst
      · rw [if_neg h2, if_neg hst]
        rw [ih]
        · split_ifs <;> rfl
        · split_ifs <;> exact hst

theorem endsWith_drop (path : List Char) (k : Nat) : endsWith path (path.drop k) = true := by
  unfold endsWith
  rw [ List.isSuffixOf_iff_suffix]
  exact List.drop_suffix k path

theorem parse_ext_cases (path : List Char) :
    (parse path).ext = [] ∨
      ∃ (start k : Nat), start = (if path.head? = some '/' then 1 else 0) ∧
        (parse path).ext = slice path k
          (parseLoop path start path.length
            { startDot := -1, startPart := 0, end_ := -1, matchedSlash := true,
              preDotState := 0 }).end_.toNat := by
  unfold parse
  simp only
  split_ifs
  all_goals first
    | exact Or.inl rfl
    | exact Or.inr ⟨1, _, by simp [*], rfl⟩
    | exact Or.inr ⟨0, _, by simp [*], rfl⟩

theorem parse_ext_endsWith (path : List Char) (hlast : path.getLast? ≠ some '/') :
    endsWith path (parse path).ext = true := by
  have hnil : endsWith path [] = true := by
    have := endsWith_drop path path.length
    rwa [List.drop_length] at this
  by_cases hp : path = []
  · subst hp
    rfl
  · obtain ⟨r, c, hr⟩ : ∃ r c, path = r ++ [c] := by
      refine ⟨path.dropLast, path.getLast hp, ?_⟩
      exact (List.dropLast_append_getLast hp).symm
    have hc : c ≠ '/' := by
      intro h
      apply hlast
      rw [hr, h]
      exact List.getLast?_concat _
    have hlen : path.length = r.length + 1 := by rw [hr]; simp
    have hget : path.getD r.length ' ' = c := by rw [hr]; simp [List.getD_eq_getElem?_getD]
    have hstart : ∀ start : Nat, start = (if path.head? = some '/' then 1 else 0) →
        ¬ r.length < start := by
      intro start hs hlt
      by_cases hh : path.head? = some '/'
      · rw [if_pos hh] at hs
        have hr0 : r = [] := List.length_eq_zero.1 (by omega)
        rw [hr, hr0] at hh
        simp at hh
        exact hc hh
      · rw [if_neg hh] at hs
        omega
    have hend : ∀ start : Nat, start = (if path.head? = some '/' then 1 else 0) →
        (parseLoop path start path.length
          { startDot := -1, startPart := 0, end_ := -1, matchedSlash := true,
            preDotState := 0 }).end_ = (path.length : Int) := by
      intro start hs
      rw [hlen]
      unfold parseLoop
      rw [if_neg (hstart start hs)]
      dsimp only
      rw [hget, if_neg hc]
      rw [parseLoop_end]
      · split_ifs <;> simp_all
      · split_ifs <;> simp_all <;> omega
    rcases parse_ext_cases path with h | ⟨start, k, hs, h⟩
    · rw [h]
      exact hnil
    · rw [h, hend start hs]
      simp only [slice, Int.toNat_ofNat, List.take_length]
      exact endsWith_drop path k

/-- For a file path (no final `/`) whose parsed extension is `e`, the path
string ends with `e`: on such paths the test `path.endsWith(e)` of `MimeType`
holds whenever `path.parse` reports the extension `e`. -/
theorem endsWith_of_parsed_ext (path e : List Char) (hlast : path.getLast? ≠ some '/')
    (hext : (parse path).ext = e) : endsWith path e = true := by
  rw [← hext]
  exact parse_ext_endsWith path hlast

end SimpleHttpServer
